import Mathlib

/-!
Verification of the RES-layout parser and binary record codec of the
xingapi-rs repository, shallowly embedded from `src/src/layout/mod.rs`,
`src/src/layout/read.rs` and `src/src/data/mod.rs`.

Rust strings are modelled as lists of unicode scalar values (`Str`);
byte buffers as lists of naturals below 256.  The external EUC-KR codec
(the `encoding_rs` crate, not part of this repository) is modelled by an
injective codec with the same structure: ASCII bytes stand for
themselves, a two-byte sequence with a lead byte in `0x81..0xFE` and a
trail byte in `0x41..0xFE` stands for one non-ASCII character (scalar
`0x10000 + lead*256 + trail` in the model), any other sequence is
malformed.  Characters outside the codec are encoded as their decimal
HTML entity, as `encoding_rs` does on the encode path.
-/

set_option maxRecDepth 4000

namespace Xing

/-- Unicode scalar values of a Rust `String`/`&str`. -/
abbrev Str := List Nat

/-- Scalar values of a Lean string literal, for writing Rust string constants. -/
def sv (s : String) : Str := s.data.map Char.toNat

/-- Model of `HashMap::get`: first association wins (keys are kept unique by
`insertA`). -/
def lookupA {α : Type} : List (Str × α) → Str → Option α
  | [], _ => none
  | (k', v) :: rest, k => if k' = k then some v else lookupA rest k

/-- Model of `HashMap::insert`: replaces the value of an existing key,
otherwise appends the new binding. -/
def insertA {α : Type} : List (Str × α) → Str → α → List (Str × α)
  | [], k, v => [(k, v)]
  | (k', v') :: rest, k, v =>
    if k' = k then (k, v) :: rest else (k', v') :: insertA rest k v

/-- Model of the slice expression `&raw[o..o + l]`: `none` is the Rust
out-of-bounds panic. -/
def sliceIdx (raw : List Nat) (o l : Nat) : Option (List Nat) :=
  if o + l ≤ raw.length then some ((raw.drop o).take l) else none

/-! ## Model of the external EUC-KR codec (`encoding_rs::EUC_KR`) -/

/-- Lead byte of a two-byte sequence (simplified windows-949 shape). -/
def euckrLead (b : Nat) : Bool := 0x81 ≤ b && b ≤ 0xFE

/-- Trail byte of a two-byte sequence (simplified windows-949 shape). -/
def euckrTrail (b : Nat) : Bool := 0x41 ≤ b && b ≤ 0xFE

/-- Model of `decode_without_bom_handling_and_without_replacement`:
`none` on any malformed sequence, no replacement characters. -/
def euckrDecode : List Nat → Option Str
  | [] => some []
  | b :: rest =>
    if b < 0x80 then (euckrDecode rest).map (b :: ·)
    else
      match rest with
      | [] => none
      | b2 :: rest2 =>
        if euckrLead b && euckrTrail b2 then
          (euckrDecode rest2).map ((0x10000 + b * 256 + b2) :: ·)
        else none

/-- Characters representable by the modelled codec. -/
def euckrChar (c : Nat) : Bool :=
  c < 0x80 ||
    (0x10000 ≤ c && euckrLead ((c - 0x10000) / 256) && euckrTrail ((c - 0x10000) % 256))

/-- Decimal digits (most significant first) as ASCII scalars; `0` is `"0"`. -/
def natDecimal (n : Nat) : List Nat :=
  if n = 0 then [0x30] else ((Nat.digits 10 n).reverse).map (· + 0x30)

/-- Model of `EUC_KR.encode` on one character: mappable characters get their
byte sequence, others their decimal HTML entity `&#n;` (the `encoding_rs`
encode-path replacement). -/
def euckrEncodeChar (c : Nat) : List Nat :=
  if c < 0x80 then [c]
  else if 0x10000 ≤ c && euckrLead ((c - 0x10000) / 256) && euckrTrail ((c - 0x10000) % 256) then
    [(c - 0x10000) / 256, (c - 0x10000) % 256]
  else
    [0x26, 0x23] ++ natDecimal c ++ [0x3B]

/-- Model of `EUC_KR.encode(field).0.to_vec()`. -/
def euckrEncode (s : Str) : List Nat := (s.map euckrEncodeChar).flatten

/-! ## Layout data model (`src/src/layout/mod.rs`) -/

/-- TR type (`enum TrType`). -/
inductive TrType
  | Func
  | Feed
deriving DecidableEq, Repr

/-- Header type (`enum HeaderType`). -/
inductive HeaderType
  | A
  | B
  | C
  | D
deriving DecidableEq, Repr

/-- Block type (`enum BlockType`). -/
inductive BlockType
  | Input
  | Output
deriving DecidableEq, Repr

/-- Field type (`enum FieldType`). -/
inductive FieldType
  | Char
  | Date
  | Int
  | Float
  | Double
deriving DecidableEq, Repr

/-- Field layout (`struct FieldLayout`). -/
structure FieldLayout where
  desc : Str
  name_old : Str
  name : Str
  field_type : FieldType
  len : Nat
  point : Option Nat
deriving DecidableEq, Repr

/-- Block layout (`struct BlockLayout`). -/
structure BlockLayout where
  name : Str
  desc : Str
  block_type : BlockType
  occurs : Bool
  len : Nat
  fields : List FieldLayout
deriving DecidableEq, Repr

/-- TR layout (`struct TrLayout`). -/
structure TrLayout where
  tr_type : TrType
  desc : Str
  code : Str
  attr_byte : Bool
  block_mode : Bool
  header_type : Option HeaderType
  in_blocks : List BlockLayout
  out_blocks : List BlockLayout
deriving DecidableEq, Repr

/-- `TrType::from_str` (`src/src/layout/mod.rs:147-156`). -/
def TrType.fromStr (s : Str) : Option TrType :=
  if s = sv ".Func" then some .Func
  else if s = sv ".Feed" then some .Feed
  else none

/-- `HeaderType::from_str`. -/
def HeaderType.fromStr (s : Str) : Option HeaderType :=
  if s = sv "A" then some .A
  else if s = sv "B" then some .B
  else if s = sv "C" then some .C
  else if s = sv "D" then some .D
  else none

/-- `BlockType::from_str`. -/
def BlockType.fromStr (s : Str) : Option BlockType :=
  if s = sv "input" then some .Input
  else if s = sv "output" then some .Output
  else none

/-- `FieldType::from_str`. -/
def FieldType.fromStr (s : Str) : Option FieldType :=
  if s = sv "char" then some .Char
  else if s = sv "date" then some .Date
  else if s = sv "long" ∨ s = sv "int" then some .Int
  else if s = sv "float" then some .Float
  else if s = sv "double" then some .Double
  else none

/-! ## Data model (`src/src/data/mod.rs`) -/

/-- Request/response direction (`enum DataType`). -/
inductive DataType
  | Input
  | Output
deriving DecidableEq, Repr

/-- A record: model of `HashMap<String, String>`. -/
abbrev Record := List (Str × Str)

/-- A single or array block (`enum Block`). -/
inductive Block
  | block (fields : Record)
  | array (blocks : List Record)
deriving DecidableEq, Repr

/-- Data exchanged with the server (`struct Data`). -/
structure Data where
  tr_code : Str
  data_type : DataType
  blocks : List (Str × Block)
deriving DecidableEq, Repr

/-- Decode errors (`enum DecodeError` of `src/src/data/mod.rs`). -/
inductive DecodeError
  | UnknownLayout (name : Str)
  | UnknownBlock (name : Str)
  | MismatchDataLength
  | InvalidArrayLength
  | MalformedString
deriving DecidableEq, Repr

/-- Encode errors (`enum EncodeError` of `src/src/data/mod.rs`). -/
inductive EncodeError
  | MismatchLayout
  | MissingBlock (block : Str)
  | MismatchBlockType (block : Str)
  | ExceedArrayLength (block : Str)
  | MissingField (block : Str) (field : Str)
  | ExceedFieldLength (block : Str) (field : Str)
deriving DecidableEq, Repr

/-- Result of a Rust computation that may panic (`assert!`, slice
out-of-bounds, division by zero) besides returning a domain error. -/
inductive PRes (ε α : Type)
  | panic
  | err (e : ε)
  | ok (a : α)
deriving DecidableEq, Repr

/-! ## Binary codec: decode (`src/src/data/mod.rs:262-402`) -/

/-- Characters trimmed by `decode_str`: `(c as u32) < 0x20 || c == ' '`. -/
def trimmable (c : Nat) : Bool := c < 0x20 || c == 0x20

/-- `str::trim_matches` with the predicate above: strip from both ends. -/
def trimValue (s : Str) : Str :=
  ((s.dropWhile trimmable).reverse.dropWhile trimmable).reverse

/-- `decode_str` (`src/src/data/mod.rs:397-402`). -/
def decode_str (data : List Nat) : Except DecodeError Str :=
  match euckrDecode data with
  | some s => .ok (trimValue s)
  | none => .error .MalformedString

/-- The shared per-record field loop of `decode_block`, `decode_block_array`
and `decode_non_block`: take the `len`-byte slice, decode it, store it under
the field name, advance the offset by `len` plus the attribute byte. -/
def decodeFields (tr : TrLayout) (fields : List FieldLayout) (raw : List Nat)
    (offset : Nat) (acc : Record) : PRes DecodeError (Record × Nat) :=
  match fields with
  | [] => .ok (acc, offset)
  | f :: rest =>
    match sliceIdx raw offset f.len with
    | none => .panic
    | some bytes =>
      match decode_str bytes with
      | .error e => .err e
      | .ok v =>
        decodeFields tr rest raw
          (offset + f.len + (if tr.attr_byte then 1 else 0)) (insertA acc f.name v)

/-- `decode_block` (`src/src/data/mod.rs:262-286`). -/
def decode_block (tr : TrLayout) (bl : BlockLayout) (raw : List Nat) :
    PRes DecodeError Block :=
  if !(tr.block_mode && !bl.occurs) then .panic
  else if raw.length ≠ bl.len then .err .MismatchDataLength
  else
    match decodeFields tr bl.fields raw 0 [] with
    | .panic => .panic
    | .err e => .err e
    | .ok (r, _) => .ok (.block r)

/-- The `for _ in 0..blocks_len` record loop shared by `decode_block_array`
and the array branch of `decode_non_block`. -/
def decodeRecords (tr : TrLayout) (fields : List FieldLayout) (raw : List Nat)
    (n : Nat) (offset : Nat) : PRes DecodeError (List Record × Nat) :=
  match n with
  | 0 => .ok ([], offset)
  | n + 1 =>
    match decodeFields tr fields raw offset [] with
    | .panic => .panic
    | .err e => .err e
    | .ok (r, offset') =>
      match decodeRecords tr fields raw n offset' with
      | .panic => .panic
      | .err e => .err e
      | .ok (rs, offset'') => .ok (r :: rs, offset'')

/-- `decode_block_array` (`src/src/data/mod.rs:288-318`).  The Rust
expression `raw_block.len() % block_layout.len` panics when the record
length is zero, hence the dedicated `.panic` branch. -/
def decode_block_array (tr : TrLayout) (bl : BlockLayout) (raw : List Nat) :
    PRes DecodeError Block :=
  if !(tr.block_mode && bl.occurs) then .panic
  else if bl.len = 0 then .panic
  else if raw.length % bl.len ≠ 0 then .err .MismatchDataLength
  else
    match decodeRecords tr bl.fields raw (raw.length / bl.len) 0 with
    | .panic => .panic
    | .err e => .err e
    | .ok (rs, _) => .ok (.array rs)

/-- Model of `str::parse::<usize>` on the digit string: optional leading
`+`, then one or more ASCII digits (integer overflow is not modelled). -/
def parseDigits : Str → Nat → Option Nat
  | [], acc => some acc
  | c :: rest, acc =>
    if 0x30 ≤ c ∧ c ≤ 0x39 then parseDigits rest (acc * 10 + (c - 0x30)) else none

/-- `str::parse::<usize>`. -/
def parseUsize (s : Str) : Option Nat :=
  match s with
  | [] => none
  | c :: rest =>
    if c = 0x2B then (match rest with | [] => none | _ => parseDigits rest 0)
    else parseDigits s 0

/-- The block walk of `decode_non_block` (`src/src/data/mod.rs:322-395`):
for an array block read the 5-byte count prefix then that many records,
for a single block one record, inserting each block under its name. -/
def decodeNbBlocks (tr : TrLayout) (bls : List BlockLayout) (raw : List Nat)
    (offset : Nat) (acc : List (Str × Block)) :
    PRes DecodeError (List (Str × Block) × Nat) :=
  match bls with
  | [] => .ok (acc, offset)
  | bl :: rest =>
    if bl.occurs then
      if offset + 5 > raw.length then .err .MismatchDataLength
      else
        match sliceIdx raw offset 5 with
        | none => .panic
        | some cntBytes =>
          match euckrDecode cntBytes with
          | none => .err .InvalidArrayLength
          | some cntStr =>
            match parseUsize cntStr with
            | none => .err .InvalidArrayLength
            | some n =>
              if offset + 5 + bl.len * n > raw.length then .err .MismatchDataLength
              else
                match decodeRecords tr bl.fields raw n (offset + 5) with
                | .panic => .panic
                | .err e => .err e
                | .ok (rs, offset') =>
                  decodeNbBlocks tr rest raw offset' (insertA acc bl.name (.array rs))
    else
      if offset + bl.len > raw.length then .err .MismatchDataLength
      else
        match decodeFields tr bl.fields raw offset [] with
        | .panic => .panic
        | .err e => .err e
        | .ok (r, offset') =>
          decodeNbBlocks tr rest raw offset' (insertA acc bl.name (.block r))

/-- `decode_non_block` (`src/src/data/mod.rs:322-395`); the
`assert!(!tr_layout.block_mode)` is the `.panic` branch. -/
def decode_non_block (tr : TrLayout) (dt : DataType) (raw : List Nat) :
    PRes DecodeError Data :=
  if tr.block_mode then .panic
  else
    match decodeNbBlocks tr tr.out_blocks raw 0 [] with
    | .panic => .panic
    | .err e => .err e
    | .ok (blocks, _) => .ok ⟨tr.code, dt, blocks⟩

/-! ## Binary codec: encode (`src/src/data/mod.rs:404-500`) -/

/-- `Vec::resize(n, 0)`: pad with NUL bytes, or truncate, to length `n`. -/
def resizeZero (l : List Nat) (n : Nat) : List Nat :=
  if l.length ≤ n then l ++ List.replicate (n - l.length) 0 else l.take n

/-- The field lookup of `encode_block`: current name first, then the
legacy name (`block.get(&name).or_else(|| block.get(&name_old))`). -/
def lookupField (r : Record) (f : FieldLayout) : Option Str :=
  match lookupA r f.name with
  | some v => some v
  | none => lookupA r f.name_old

/-- `encode_block` (`src/src/data/mod.rs:466-500`), recursing over the
field list of the `for field_layout in &block_layout.fields` loop and
returning the bytes it appends to `enc_data`. -/
def encode_block (tr : TrLayout) (bl : BlockLayout) (fields : List FieldLayout)
    (r : Record) : Except EncodeError (List Nat) :=
  match fields with
  | [] => .ok []
  | f :: rest =>
    match lookupField r f with
    | none => .error (.MissingField bl.name f.name)
    | some v =>
      let enc := euckrEncode v
      if enc.length > f.len then .error (.ExceedFieldLength bl.name f.name)
      else
        let padded :=
          if tr.attr_byte then resizeZero enc (f.len + 1) else resizeZero enc f.len
        match encode_block tr bl rest r with
        | .error e => .error e
        | .ok tail => .ok (padded ++ tail)

/-- The `for block in arr_block.iter()` loop of `encode`. -/
def encodeArr (tr : TrLayout) (bl : BlockLayout) : List Record →
    Except EncodeError (List Nat)
  | [] => .ok []
  | r :: rest =>
    match encode_block tr bl bl.fields r with
    | .error e => .error e
    | .ok b =>
      match encodeArr tr bl rest with
      | .error e => .error e
      | .ok t => .ok (b ++ t)

/-- `format!("{:0>5}", n).as_bytes()`: the decimal digits of `n`,
left-padded with `'0'` to width 5. -/
def countPrefix (n : Nat) : List Nat :=
  List.replicate (5 - (natDecimal n).length) 0x30 ++ natDecimal n

/-- The block walk of `encode` (`src/src/data/mod.rs:417-461`). -/
def encodeBlocks (tr : TrLayout) (data : Data) : List BlockLayout →
    Except EncodeError (List Nat)
  | [] => .ok []
  | bl :: rest =>
    if bl.occurs then
      match lookupA data.blocks bl.name with
      | none => .error (.MissingBlock bl.name)
      | some (.block _) => .error (.MismatchBlockType bl.name)
      | some (.array arr) =>
        if !tr.block_mode && decide (arr.length ≥ 100000) then
          .error (.ExceedArrayLength bl.name)
        else
          let pre := if !tr.block_mode then countPrefix arr.length else []
          match encodeArr tr bl arr with
          | .error e => .error e
          | .ok b =>
            match encodeBlocks tr data rest with
            | .error e => .error e
            | .ok t => .ok (pre ++ b ++ t)
    else
      match lookupA data.blocks bl.name with
      | none => .error (.MissingBlock bl.name)
      | some (.array _) => .error (.MismatchBlockType bl.name)
      | some (.block r) =>
        match encode_block tr bl bl.fields r with
        | .error e => .error e
        | .ok b =>
          match encodeBlocks tr data rest with
          | .error e => .error e
          | .ok t => .ok (b ++ t)

/-- `encode` (`src/src/data/mod.rs:405-464`). -/
def encode (data : Data) (tr : TrLayout) : Except EncodeError (List Nat) :=
  if data.tr_code ≠ tr.code then .error .MismatchLayout
  else
    encodeBlocks tr data
      (match data.data_type with
       | .Input => tr.in_blocks
       | .Output => tr.out_blocks)

/-! ## Directory loader merge (`src/src/layout/mod.rs:64-84`) -/

/-- Load errors (`enum LoadError` of `src/src/layout/error.rs`).  The
`Io`, `Encoding` and `Parse` payloads (io error, file path) live outside
the model; only the merge loop, which can raise `Confilict` (sic, the
source's spelling), is modelled. -/
inductive LoadError
  | Io
  | Encoding
  | Parse
  | Confilict (code : Str)
deriving DecidableEq, Repr

/-- The sequential merge loop of `load_dir`: the parsed layouts arrive in
an arbitrary order on the channel; each is compared against the entry
already stored under its code, `Confilict(code)` on structural
inequality. -/
def mergeGo : List TrLayout → List (Str × TrLayout) →
    Except LoadError (List (Str × TrLayout))
  | [], tbl => .ok tbl
  | l :: rest, tbl =>
    match lookupA tbl l.code with
    | some other => if l ≠ other then .error (.Confilict l.code) else mergeGo rest tbl
    | none => mergeGo rest (insertA tbl l.code l)

/-- The merge phase of `load_dir` on the successfully parsed layouts. -/
def mergeLayouts (ls : List TrLayout) : Except LoadError (List (Str × TrLayout)) :=
  mergeGo ls []

/-! ## Tokenizer (`src/src/layout/read.rs`)

The Rust reader iterates `CharIndices` over the source; positions are
modelled as character indices (the code compares offsets only for
order/equality and slices at token boundaries, so byte and character
offsets are interchangeable). -/

/-- Mutable reader state (`struct StrReadState`): iterator position,
previously returned symbol and `latest_offset`. -/
structure RState where
  pos : Nat
  prev : Str
  latest : Nat
deriving DecidableEq, Repr

/-- Helper of `skipWs`, walking the suffix of the source at position `p`. -/
def skipWsAux : List Nat → Nat → Option Nat
  | [], _ => none
  | c :: rest, p =>
    if c = 0x20 ∨ c = 0x09 ∨ c = 0x0D ∨ c = 0x0A then skipWsAux rest (p + 1)
    else some p

/-- `skip_until_not_whitespace`: advance over `' '`, `'\t'`, `'\r'`,
`'\n'`; `none` when the end of input is reached. -/
def skipWs (src : Str) (p : Nat) : Option Nat := skipWsAux (src.drop p) p

/-- Helper of `skipComment`, walking the suffix of the source at `p`. -/
def skipCommentAux : List Nat → Nat → Option Nat
  | [], _ => none
  | c :: rest, p =>
    if c = 0x2A ∧ rest.head? = some 0x2F then some (p + 2)
    else skipCommentAux rest (p + 1)

/-- `skip_until_not_comment`: advance to just past the first `*/`;
`none` when the input ends first. -/
def skipComment (src : Str) (p : Nat) : Option Nat := skipCommentAux (src.drop p) p

/-- The scanning loop of `next_sym` (`src/src/layout/read.rs:100-160`).
Arguments mirror the loop state: current position `p`, `begin_idx` `b`,
`end_idx` `e`, `prev_whitespace` `pw`.  Returns
`(begin_idx, end_idx, final position)`.  The fuel only bounds the loop;
`next_sym` passes `src.length + 1`, which the loop (whose position
strictly increases) never exhausts. -/
def scanLoop (src : Str) : Nat → Nat → Nat → Nat → Bool → Option (Nat × Nat × Nat)
  | 0, _, _, _, _ => none
  | fuel + 1, p, b, e, pw =>
    match src[p]? with
    | none => some (b, e, p)
    | some c =>
      if c = 0x0D ∨ c = 0x0A then
        if p = b then
          match skipWs src p with
          | none => none
          | some p' => scanLoop src fuel p' p' e pw
        else some (b, if pw then e else p, p)
      else if c = 0x2F ∧ src[p + 1]? = some 0x2A then
        if p = b then
          match skipComment src (p + 2) with
          | none => none
          | some p' =>
            match src[p']? with
            | none => none
            | some _ => scanLoop src fuel p' p' e pw
        else some (b, if pw then e else p, p)
      else if c = 0x2C ∨ c = 0x3B then
        if p = b then some (b, p + 1, p + 1)
        else some (b, if pw then e else p, p)
      else if c = 0x20 ∨ c = 0x09 then
        scanLoop src fuel (p + 1) b (if pw then e else p) true
      else if c = 0x2F then
        scanLoop src fuel (p + 1) b e pw
      else
        scanLoop src fuel (p + 1) b e false

/-- The token slice `&self.string[begin_idx..end_idx]`. -/
def sliceTok (src : Str) (b e : Nat) : Str := (src.drop b).take (e - b)

/-- The whitespace skip and scan of `next_sym` up to the state update. -/
def scanPipe (src : Str) (p : Nat) : Option (Nat × Nat × Nat) :=
  match skipWs src p with
  | none => none
  | some p0 => scanLoop src (src.length + 1) p0 p0 src.length false

/-- `next_sym` (`src/src/layout/read.rs:91-177`): scan a token, then
either the degenerate consecutive-delimiter step (empty symbol, iterator
and `latest_offset` untouched) or the regular state update. -/
def nextSymFn (src : Str) (st : RState) : Option Str × RState :=
  match scanPipe src st.pos with
  | none => (none, st)
  | some (b, e, p') =>
    let sym := sliceTok src b e
    if (sym = sv "," ∨ sym = sv ";") ∧ (st.prev = sv "," ∨ st.prev = sv ";") then
      (some [], { st with prev := [] })
    else
      (some sym, { pos := p', prev := sym, latest := b })

/-- `peek_sym` (`src/src/layout/read.rs:80-89`): run `next_sym`, then
restore the iterator and the previous symbol — but not `latest_offset`. -/
def peekSymFn (src : Str) (st : RState) : Option Str × RState :=
  let r := nextSymFn src st
  (r.1, { pos := st.pos, prev := st.prev, latest := r.2.latest })

/-- The character walk of `position` (`src/src/layout/read.rs:179-211`):
stop at the first character whose index reaches `latest_offset`; `\r\n`
is consumed as one break (the `next_if`), tabs advance to the next tab
stop of width 4. -/
def posGo : List Nat → Nat → Nat → Nat × Nat → Nat × Nat
  | [], _, _, pos => pos
  | 0x0D :: 0x0A :: rest2, idx, stop, (line, col) =>
    if stop ≤ idx then (line, col) else posGo rest2 (idx + 2) stop (line + 1, 1)
  | 0x0D :: rest, idx, stop, (line, col) =>
    if stop ≤ idx then (line, col) else posGo rest (idx + 1) stop (line + 1, 1)
  | 0x0A :: rest, idx, stop, (line, col) =>
    if stop ≤ idx then (line, col) else posGo rest (idx + 1) stop (line + 1, 1)
  | c :: rest, idx, stop, (line, col) =>
    if stop ≤ idx then (line, col)
    else if c = 0x09 then posGo rest (idx + 1) stop (line, col + (4 - (col - 1) % 4))
    else posGo rest (idx + 1) stop (line, col + 1)

/-- `position` as a function of the source and an offset. -/
def posOf (src : Str) (stop : Nat) : Nat × Nat := posGo src 0 stop (1, 1)

/-- `position` (`src/src/layout/read.rs:179-211`). -/
def positionOf (src : Str) (st : RState) : Nat × Nat := posOf src st.latest

/-! ## Layout parser (`src/src/layout/mod.rs`) -/

/-- Parse error kinds (`enum ErrorKind` of `src/src/layout/error.rs`). -/
inductive ErrorKind
  | Syntax
  | Data
  | Eof
deriving DecidableEq, Repr

/-- Parse error with position (`struct Error` of `src/src/layout/error.rs`). -/
structure PError where
  kind : ErrorKind
  line : Nat
  column : Nat
deriving DecidableEq, Repr

/-- `Error::unexpected_*`: an error at the reader's current position. -/
def errAt (src : Str) (st : RState) (k : ErrorKind) : PError :=
  ⟨k, (positionOf src st).1, (positionOf src st).2⟩

/-- The `next_sym` helper of the parser (`src/src/layout/mod.rs:86-90`). -/
def nextSymE (src : Str) (st : RState) : Except PError (Str × RState) :=
  match nextSymFn src st with
  | (none, st') => .error (errAt src st' .Eof)
  | (some s, st') => .ok (s, st')

/-- The `peek_sym` helper of the parser (`src/src/layout/mod.rs:92-96`). -/
def peekSymE (src : Str) (st : RState) : Except PError (Str × RState) :=
  match peekSymFn src st with
  | (none, st') => .error (errAt src st' .Eof)
  | (some s, st') => .ok (s, st')

/-- `skip_delimiter` (`src/src/layout/mod.rs:98-104`). -/
def skipDelimiter (src : Str) (st : RState) : Except PError RState := do
  let (s, st) ← nextSymE src st
  if s = sv "," then pure st
  else if s = sv ";" then .error (errAt src st .Data)
  else .error (errAt src st .Syntax)

/-- `str::split_once` at the first occurrence of scalar `c`. -/
def splitOnce : Str → Nat → Option (Str × Str)
  | [], _ => none
  | x :: rest, c =>
    if x = c then some ([], rest)
    else (splitOnce rest c).map (fun pr => (x :: pr.1, pr.2))

/-- `str::rsplit_once` at the last occurrence of pattern `pat`. -/
def rsplitOnce (l pat : Str) : Option (Str × Str) :=
  match ((List.range (l.length + 1)).filter
      (fun i => decide ((l.drop i).take pat.length = pat))).getLast? with
  | none => none
  | some i => some (l.take i, l.drop (i + pat.length))

/-- `char::is_ascii_alphabetic`. -/
def isAsciiAlpha (c : Nat) : Bool :=
  (0x41 ≤ c && c ≤ 0x5A) || (0x61 ≤ c && c ≤ 0x7A)

/-- `char::is_ascii_digit`. -/
def isAsciiDigit (c : Nat) : Bool := 0x30 ≤ c && c ≤ 0x39

/-- `char::is_ascii_alphanumeric`. -/
def isAsciiAlnum (c : Nat) : Bool := isAsciiDigit c || isAsciiAlpha c

/-- The TR-parameter loop of `TrLayout::from_reader`
(`src/src/layout/mod.rs:207-247`).  The fuel only bounds the loop (each
iteration consumes input or errors out); callers pass `src.length + 1`. -/
def trParamLoop (src : Str) : Nat → RState → Bool → Bool → Option HeaderType →
    Except PError (Bool × Bool × Option HeaderType × RState)
  | 0, _, _, _, _ => .error ⟨.Eof, 0, 0⟩
  | fuel + 1, st, attr, block, ht => do
    let (s, st) ← nextSymE src st
    if s = sv "," then do
      let (param, st) ← nextSymE src st
      match splitOnce param 0x3D with
      | some (key, val) =>
        if key.any (fun c => !isAsciiAlpha c) ∨ val.contains 0x3D then
          .error (errAt src st .Data)
        else if key = sv "headtype" then
          match HeaderType.fromStr val with
          | some h => trParamLoop src fuel st attr block (some h)
          | none => .error (errAt src st .Data)
        else if key = sv "key" ∨ key = sv "group" ∨ key = sv "tuxcode" ∨
            key = sv "svr" ∨ key = sv "SERVICE" ∨ key = sv "CREATOR" ∨
            key = sv "CREDATE" then
          trParamLoop src fuel st attr block ht
        else .error (errAt src st .Data)
      | none =>
        if param = sv "attr" then trParamLoop src fuel st true block ht
        else if param = sv "block" then trParamLoop src fuel st attr true ht
        else if param = sv "ENCRYPT" ∨ param = sv "SIGNATURE" then
          trParamLoop src fuel st attr block ht
        else .error (errAt src st .Data)
    else if s = sv ";" then pure (attr, block, ht, st)
    else .error (errAt src st .Syntax)

/-- `FieldLayout::from_reader` (`src/src/layout/mod.rs:472-514`). -/
def parseField (src : Str) (st : RState) : Except PError (FieldLayout × RState) := do
  let (desc, st) ← nextSymE src st
  let st ← skipDelimiter src st
  let (name_old, st) ← nextSymE src st
  let st ← skipDelimiter src st
  let (name, st) ← nextSymE src st
  let st ← skipDelimiter src st
  let (ftRaw, st) ← nextSymE src st
  let ft ←
    match FieldType.fromStr ftRaw with
    | some ft => pure ft
    | none => .error (errAt src st .Data)
  let st ← skipDelimiter src st
  let (rawLen, st) ← nextSymE src st
  let lenPoint ←
    match splitOnce rawLen 0x2E with
    | some (l, pt) =>
      match parseUsize l, parseUsize pt with
      | some l', some pt' => pure (l', some pt')
      | _, _ => (.error (errAt src st .Data) : Except PError (Nat × Option Nat))
    | none =>
      match parseUsize rawLen with
      | some l' => pure (l', (none : Option Nat))
      | none => .error (errAt src st .Data)
  let (pk, st) ← peekSymE src st
  let st ←
    if pk = sv ";" then
      match nextSymFn src st with
      | (some _, st') => pure st'
      | (none, _) => (.error (⟨.Eof, 0, 0⟩ : PError) : Except PError RState)
    else pure st
  pure (⟨desc, name_old, name, ft, lenPoint.1, lenPoint.2⟩, st)

/-- The block-parameter (`occurs`) loop of `BlockLayout::from_reader`
(`src/src/layout/mod.rs:363-378`). -/
def blockParamLoop (src : Str) : Nat → RState → Bool →
    Except PError (Bool × RState)
  | 0, _, _ => .error ⟨.Eof, 0, 0⟩
  | fuel + 1, st, occurs => do
    let (s, st) ← nextSymE src st
    if s = sv "," then do
      let (param, st) ← nextSymE src st
      if param = sv "occurs" then blockParamLoop src fuel st true
      else .error (errAt src st .Data)
    else if s = sv ";" then pure (occurs, st)
    else .error (errAt src st .Syntax)

/-- The field loop of `BlockLayout::from_reader`
(`src/src/layout/mod.rs:386-393`). -/
def fieldLoop (src : Str) : Nat → RState → List FieldLayout →
    Except PError (List FieldLayout × RState)
  | 0, _, _ => .error ⟨.Eof, 0, 0⟩
  | fuel + 1, st, acc => do
    let (pk, st) ← peekSymE src st
    if pk = sv "end" then
      match nextSymFn src st with
      | (some _, st') => pure (acc, st')
      | (none, _) => .error ⟨.Eof, 0, 0⟩
    else do
      let (f, st) ← parseField src st
      fieldLoop src fuel st (acc ++ [f])

/-- `BlockLayout::from_reader` (`src/src/layout/mod.rs:338-409`). -/
def parseBlock (src : Str) (st : RState) (attr_byte : Bool) :
    Except PError (BlockLayout × RState) := do
  let (name, st) ← nextSymE src st
  let pr ←
    match rsplitOnce name (sv "InBlock") with
    | some pr => pure pr
    | none =>
      match rsplitOnce name (sv "OutBlock") with
      | some pr => pure pr
      | none => (.error (errAt src st .Data) : Except PError (Str × Str))
  if pr.1.any (fun c => !isAsciiAlnum c) ∨ pr.2.any (fun c => !isAsciiDigit c) then
    .error (errAt src st .Data)
  else do
  let st ← skipDelimiter src st
  let (desc, st) ← nextSymE src st
  let st ← skipDelimiter src st
  let (btRaw, st) ← nextSymE src st
  let bt ←
    match BlockType.fromStr btRaw with
    | some bt => pure bt
    | none => .error (errAt src st .Data)
  let (occurs, st) ← blockParamLoop src (src.length + 1) st false
  let (s, st) ← nextSymE src st
  if s ≠ sv "begin" then .error (errAt src st .Syntax)
  else do
  let (fields, st) ← fieldLoop src (src.length + 1) st []
  let len := (fields.map (fun f => f.len + if attr_byte then 1 else 0)).sum
  pure (⟨name, desc, bt, occurs, len, fields⟩, st)

/-- The block loop of `TrLayout::from_reader`
(`src/src/layout/mod.rs:256-272`). -/
def blockLoop (src : Str) : Nat → RState → Bool → List BlockLayout →
    List BlockLayout → Except PError (List BlockLayout × List BlockLayout × RState)
  | 0, _, _, _, _ => .error ⟨.Eof, 0, 0⟩
  | fuel + 1, st, attr, inb, outb => do
    let (pk, st) ← peekSymE src st
    if pk = sv "END_DATA_MAP" then do
      let (_, st) ← nextSymE src st
      pure (inb, outb, st)
    else do
      let (bl, st) ← parseBlock src st attr
      match bl.block_type with
      | .Input => blockLoop src fuel st attr (inb ++ [bl]) outb
      | .Output => blockLoop src fuel st attr inb (outb ++ [bl])

/-- `TrLayout::from_reader` (`src/src/layout/mod.rs:185-284`).  `code.len()`
is a byte count in Rust; element count here (the two agree on the ASCII
codes the 3-character check is about). -/
def parseTrFrom (src : Str) (st : RState) : Except PError (TrLayout × RState) := do
  let (s, st) ← nextSymE src st
  if s ≠ sv "BEGIN_FUNCTION_MAP" then .error (errAt src st .Syntax)
  else do
  let (tts, st) ← nextSymE src st
  let tr_type ←
    match TrType.fromStr tts with
    | some t => pure t
    | none => .error (errAt src st .Data)
  let st ← skipDelimiter src st
  let (desc, st) ← nextSymE src st
  let st ← skipDelimiter src st
  let (code, st) ← nextSymE src st
  if tr_type = .Feed ∧ code.length ≠ 3 then .error (errAt src st .Data)
  else do
  let (attr, block, ht, st) ← trParamLoop src (src.length + 1) st false false none
  let (s2, st) ← nextSymE src st
  if s2 ≠ sv "BEGIN_DATA_MAP" then .error (errAt src st .Syntax)
  else do
  let (inb, outb, st) ← blockLoop src (src.length + 1) st attr [] []
  pure (⟨tr_type, desc, code, attr, block, ht, inb, outb⟩, st)

/-- `TrLayout::from_str`: parse from a fresh reader. -/
def parseTrLayout (src : Str) : Except PError TrLayout :=
  (parseTrFrom src ⟨0, [], 0⟩).map (fun pr => pr.1)

instance {ε α : Type} [DecidableEq ε] [DecidableEq α] : DecidableEq (Except ε α) :=
  fun x y =>
  match x, y with
  | .ok a, .ok b =>
    if h : a = b then .isTrue (by rw [h]) else .isFalse (fun hc => h (by injection hc))
  | .error a, .error b =>
    if h : a = b then .isTrue (by rw [h]) else .isFalse (fun hc => h (by injection hc))
  | .ok _, .error _ => .isFalse (fun hc => Except.noConfusion hc)
  | .error _, .ok _ => .isFalse (fun hc => Except.noConfusion hc)

/-! ## Derived notions used in the claim statements -/

/-- The per-field attribute adjustment (`if tr_layout.attr_byte { 1 } else { 0 }`). -/
def attrAdj (tr : TrLayout) : Nat := if tr.attr_byte then 1 else 0

/-- The record length a list of fields occupies on the wire. -/
def recLenF (tr : TrLayout) (fields : List FieldLayout) : Nat :=
  (fields.map (fun f => f.len + attrAdj tr)).sum

/-- The bytes `encode_block` emits for one field: the encoded value,
NUL-padded to `len` plus the attribute byte. -/
def padField (tr : TrLayout) (f : FieldLayout) (v : Str) : List Nat :=
  euckrEncode v ++ List.replicate (f.len + attrAdj tr - (euckrEncode v).length) 0

/-- A value that survives the codec: every character is representable and
the encoding fits in the field. -/
def goodValue (f : FieldLayout) (v : Str) : Prop :=
  (∀ c ∈ v, euckrChar c = true) ∧ (euckrEncode v).length ≤ f.len

/-- A record in canonical form for a field list: one entry per field, in
field order, keyed by the current name, with codec-surviving values. -/
def goodRecord (fields : List FieldLayout) (r : Record) : Prop :=
  List.Forall₂ (fun f (p : Str × Str) => p.1 = f.name ∧ goodValue f p.2) fields r

/-- A block value matching its layout's shape, with canonical records. -/
def goodBlock (bl : BlockLayout) : Block → Prop
  | .block r => bl.occurs = false ∧ goodRecord bl.fields r
  | .array rs => bl.occurs = true ∧ rs.length < 100000 ∧ ∀ r ∈ rs, goodRecord bl.fields r

/-- Output data in canonical form for a layout: one entry per declared
output block, in declaration order, keyed by block name. -/
def goodData (tr : TrLayout) (d : Data) : Prop :=
  d.tr_code = tr.code ∧ d.data_type = .Output ∧
    List.Forall₂ (fun bl (p : Str × Block) => p.1 = bl.name ∧ goodBlock bl p.2)
      tr.out_blocks d.blocks

/-- Layout well-formedness for the round-trip: non-block-mode, distinct
block and field names, and record lengths consistent with the field
lists (as `BlockLayout::from_reader` computes them). -/
def wfLayout (tr : TrLayout) : Prop :=
  tr.block_mode = false ∧ (tr.out_blocks.map (fun bl => bl.name)).Nodup ∧
    ∀ bl ∈ tr.out_blocks,
      bl.len = recLenF tr bl.fields ∧ (bl.fields.map (fun f => f.name)).Nodup

/-- Trim every value of a record, as `decode_str` does. -/
def trimRecord (r : Record) : Record := r.map (fun p => (p.1, trimValue p.2))

/-- Trim every value of a block. -/
def trimBlock : Block → Block
  | .block r => .block (trimRecord r)
  | .array rs => .array (rs.map trimRecord)

/-- Trim every string value of a data, leaving the structure unchanged. -/
def trimData (d : Data) : Data :=
  ⟨d.tr_code, d.data_type, d.blocks.map (fun p => (p.1, trimBlock p.2))⟩

/-- The value a canonical record holds for a field (its current name). -/
def valueOf (r : Record) (g : FieldLayout) : Str := (lookupA r g.name).getD []

/-- The wire bytes of one canonical record: each field's padded value in
field order. -/
def recBytesOf (tr : TrLayout) (fields : List FieldLayout) (r : Record) : List Nat :=
  (fields.map (fun g => padField tr g (valueOf r g))).flatten

/-- The wire bytes of a record array: the records back-to-back. -/
def arrBytesOf (tr : TrLayout) (fields : List FieldLayout) (rs : List Record) : List Nat :=
  (rs.map (recBytesOf tr fields)).flatten

/-- The wire bytes of one block of a non-block-mode TR: a 5-digit count
prefix before an array block, none before a single block. -/
def blockBytesOf (tr : TrLayout) (bl : BlockLayout) : Block → List Nat
  | .block r => recBytesOf tr bl.fields r
  | .array rs => countPrefix rs.length ++ arrBytesOf tr bl.fields rs

/-- The position rule exactly as the claim words it ("every tab character
advances the column by exactly 4"), for comparison with `posOf`. -/
def posClaimStep : List Nat → Nat × Nat → Nat × Nat
  | [], p => p
  | 0x0D :: 0x0A :: rest, (line, _) => posClaimStep rest (line + 1, 1)
  | 0x0D :: rest, (line, _) => posClaimStep rest (line + 1, 1)
  | 0x0A :: rest, (line, _) => posClaimStep rest (line + 1, 1)
  | c :: rest, (line, col) =>
    posClaimStep rest (line, if c = 0x09 then col + 4 else col + 1)

/-- The claimed position of an offset: the claim's rule over the prefix. -/
def posClaimOf (src : Str) (stop : Nat) : Nat × Nat :=
  posClaimStep (src.take stop) (1, 1)

/-- The amended position rule: as the claim, except that a tab advances
the column to the next tab stop of width 4. -/
def posSpecStep : List Nat → Nat × Nat → Nat × Nat
  | [], p => p
  | 0x0D :: 0x0A :: rest, (line, _) => posSpecStep rest (line + 1, 1)
  | 0x0D :: rest, (line, _) => posSpecStep rest (line + 1, 1)
  | 0x0A :: rest, (line, _) => posSpecStep rest (line + 1, 1)
  | c :: rest, (line, col) =>
    posSpecStep rest (line, if c = 0x09 then col + (4 - (col - 1) % 4) else col + 1)

/-- The amended position of an offset: the amended rule over the prefix. -/
def posSpecOf (src : Str) (stop : Nat) : Nat × Nat :=
  posSpecStep (src.take stop) (1, 1)

/-! ## Concrete layouts and inputs used by the claim theorems -/

/-- C1 counterexample: a layout with one input block and no output blocks. -/
def c1Field : FieldLayout := ⟨sv "fd", sv "fo", sv "f", .Char, 1, none⟩

def c1InBlock : BlockLayout := ⟨sv "tInBlock", sv "bd", .Input, false, 1, [c1Field]⟩

def c1Tr : TrLayout := ⟨.Func, sv "d", sv "t", false, false, none, [c1InBlock], []⟩

def c1Data : Data := ⟨sv "t", .Input, [(sv "tInBlock", .block [(sv "f", sv "a")])]⟩

/-- C2 counterexample: one array output block of record length 1. -/
def c2Field : FieldLayout := ⟨sv "fd", sv "fo", sv "f", .Char, 1, none⟩

def c2Block : BlockLayout := ⟨sv "tOutBlock", sv "bd", .Output, true, 1, [c2Field]⟩

def c2Tr : TrLayout := ⟨.Func, sv "d", sv "t2", false, false, none, [], [c2Block]⟩

/-- `record_byte_length` as `BlockLayout::from_reader` computes it
(`src/src/layout/mod.rs:395-398`). -/
def mkBlockLen (attr : Bool) (fs : List FieldLayout) : Nat :=
  (fs.map (fun f => f.len + if attr then 1 else 0)).sum

/-- C3: two fields of byte lengths 3 and 5. -/
def c3Field1 : FieldLayout := ⟨sv "d1", sv "fo1", sv "fn1", .Char, 3, none⟩

def c3Field2 : FieldLayout := ⟨sv "d2", sv "fo2", sv "fn2", .Char, 5, none⟩

/-- C3: array block over the two fields, length computed at parse time. -/
def c3Block : BlockLayout :=
  ⟨sv "cOutBlock", sv "bd", .Output, true, mkBlockLen true [c3Field1, c3Field2],
    [c3Field1, c3Field2]⟩

def c3Tr : TrLayout := ⟨.Func, sv "d", sv "c3", true, true, none, [], [c3Block]⟩

/-- C4 witness block: one field of byte length 4. -/
def c4Field : FieldLayout := ⟨sv "fd", sv "old", sv "fld", .Char, 4, none⟩

def c4Block : BlockLayout := ⟨sv "blkInBlock", sv "bd", .Input, false, 4, [c4Field]⟩

def c4Tr : TrLayout := ⟨.Func, sv "d", sv "c4", false, false, none, [c4Block], []⟩

def c4Record : Record := [(sv "fld", sv "12345")]

/-- The text of the C6 scenario, exactly as the claim states it. -/
def c6ClaimText : Str :=
  sv "BEGIN_FUNCTION_MAP tr, desc, t1101, attr; BEGIN_DATA_MAP END_DATA_MAP"

/-- The C6 scenario with the accepted `.Func` spelling and the newline
separation the tokenizer requires between keyword and parameters. -/
def c6FuncText : Str :=
  sv "BEGIN_FUNCTION_MAP\n.Func, desc, t1101, attr;\nBEGIN_DATA_MAP\nEND_DATA_MAP"

/-- The newline-separated C6 scenario with the rejected `tr` spelling. -/
def c6TrText : Str :=
  sv "BEGIN_FUNCTION_MAP\ntr, desc, t1101, attr;\nBEGIN_DATA_MAP\nEND_DATA_MAP"

/-- The layout the C6 scenario expects. -/
def c6Expected : TrLayout := ⟨.Func, sv "desc", sv "t1101", true, false, none, [], []⟩

/-- C10: a block-mode layout whose only output block has an empty
`begin ... end` field list. -/
def c10Text : Str :=
  sv "BEGIN_FUNCTION_MAP\n.Func, desc, t1, attr, block;\nBEGIN_DATA_MAP\nt1OutBlock, out desc, output, occurs;\nbegin\nend\nEND_DATA_MAP"

/-- The output block of `c10Layout`. -/
def c10Block : BlockLayout := ⟨sv "t1OutBlock", sv "out desc", .Output, true, 0, []⟩

/-- The layout `c10Text` parses to: an array output block of record length 0. -/
def c10Layout : TrLayout :=
  ⟨.Func, sv "desc", sv "t1", true, true, none, [], [c10Block]⟩

/-- C1 witness layout: a single-field, non-array output block of a
non-block-mode TR with attribute bytes (record length 2 + 1). -/
def c1wField : FieldLayout := ⟨sv "fd", sv "old", sv "fld", .Char, 2, none⟩

def c1wBlock : BlockLayout := ⟨sv "t0OutBlock", sv "bd", .Output, false, 3, [c1wField]⟩

def c1wTr : TrLayout := ⟨.Func, sv "d", sv "t0", true, false, none, [], [c1wBlock]⟩

/-- C1 witness data: the declared output block with a codec-surviving
value whose trailing space the decoder trims. -/
def c1wData : Data := ⟨sv "t0", .Output, [(sv "t0OutBlock", .block [(sv "fld", sv "a ")])]⟩


/-! # Theorems -/

/-! ## C3 — record length of the two-field attribute-byte array block -/

/-- C3 (counterexample): with two fields of byte lengths 3 and 5,
`has_attribute_byte = true` and `is_array = true`, the record length is
10, so block-mode array decode of an 18-byte buffer fails with the
length-mismatch error instead of yielding 2 records as claimed. -/
theorem c3_eighteen_bytes_rejected :
    decode_block_array c3Tr c3Block (List.replicate 18 0x41) =
      .err .MismatchDataLength := by decide

/-- C3 (amended): the record length of this configuration is 10 bytes
(each field costs `byte_length + 1` with attribute bytes); a 20-byte
buffer decodes to exactly 2 records, while 17- and 18-byte buffers fail
with `MismatchDataLength`. -/
theorem c3_record_length_ten :
    c3Block.len = 10 ∧
    decode_block_array c3Tr c3Block (List.replicate 20 0x41) =
      .ok (.array
        [[(sv "fn1", sv "AAA"), (sv "fn2", sv "AAAAA")],
         [(sv "fn1", sv "AAA"), (sv "fn2", sv "AAAAA")]]) ∧
    decode_block_array c3Tr c3Block (List.replicate 17 0x41) =
      .err .MismatchDataLength ∧
    decode_block_array c3Tr c3Block (List.replicate 18 0x41) =
      .err .MismatchDataLength := by decide

/-! ## C10 — zero-length record blocks make block-mode array decode panic -/

/-- C10: a block-mode layout whose array output block was parsed from an
empty `begin ... end` field list has record length 0, and block-mode
array decode of that block panics (`raw_block.len() % 0`) on every
input instead of returning a `DecodeError`. -/
theorem c10_zero_record_length_panics :
    parseTrLayout c10Text = .ok c10Layout ∧
    c10Layout.out_blocks = [c10Block] ∧ c10Block.len = 0 ∧
    ∀ raw : List Nat, decode_block_array c10Layout c10Block raw = .panic := by
  refine ⟨by decide, by decide, by decide, fun raw => ?_⟩
  rfl

/-! ## C6 — accepted TR-type spellings and the scenario text -/

/-- C6 (counterexample): parsing the claim's text fails (the tokenizer
does not split `BEGIN_FUNCTION_MAP tr` at the space, and `tr` is not an
accepted spelling), instead of succeeding as claimed. -/
theorem c6_claim_text_rejected :
    parseTrLayout c6ClaimText = .error ⟨.Syntax, 1, 1⟩ := by decide

/-- C6 (amended): the parser accepts only `.Func` (type `Func`) and
`.Feed`; spaces do not separate symbols, so the claim's one-line text
fails with a syntax error at the combined first token; the
newline-separated variant parses with `.Func` to the expected layout
and fails with a data error with `tr`. -/
theorem c6_only_dotted_spellings :
    TrType.fromStr (sv ".Func") = some .Func ∧
    TrType.fromStr (sv ".Feed") = some .Feed ∧
    TrType.fromStr (sv "tr") = none ∧
    TrType.fromStr (sv "real") = none ∧
    parseTrLayout c6ClaimText = .error ⟨.Syntax, 1, 1⟩ ∧
    parseTrLayout c6FuncText = .ok c6Expected ∧
    parseTrLayout c6TrText = .error ⟨.Data, 2, 1⟩ := by decide

/-! ## C7 — the degenerate consecutive-delimiter rule -/

/-- C7 (counterexample): tokenizing `",;"` — after the first `,` the
degenerate rule returns the empty string but the cursor stays before the
`;` (position 1), and the very next call produces that `;`; the claim
said the cursor advances past it and it is never produced. -/
theorem c7_cursor_not_advanced :
    nextSymFn (sv ",;") ⟨0, [], 0⟩ = (some (sv ","), ⟨1, sv ",", 0⟩) ∧
    nextSymFn (sv ",;") ⟨1, sv ",", 0⟩ = (some [], ⟨1, [], 0⟩) ∧
    nextSymFn (sv ",;") ⟨1, [], 0⟩ = (some (sv ";"), ⟨2, sv ";", 1⟩) := by decide

/-- C7 (amended): whenever the scanned token is `,` or `;` and the
previously returned token was also `,` or `;`, `next_sym` returns the
empty string with the cursor and `latest_offset` unchanged (only the
previous-symbol register is cleared), so the same delimiter is produced
by the immediately following call. -/
theorem c7_degenerate_returns_empty (src : Str) (st : RState) (b e p' : Nat)
    (hscan : scanPipe src st.pos = some (b, e, p'))
    (hsym : sliceTok src b e = sv "," ∨ sliceTok src b e = sv ";")
    (hprev : st.prev = sv "," ∨ st.prev = sv ";") :
    nextSymFn src st = (some [], ⟨st.pos, [], st.latest⟩) ∧
      nextSymFn src ⟨st.pos, [], st.latest⟩ =
        (some (sliceTok src b e), ⟨p', sliceTok src b e, b⟩) := by
  have hdeg : (sliceTok src b e = sv "," ∨ sliceTok src b e = sv ";") ∧
      (st.prev = sv "," ∨ st.prev = sv ";") := ⟨hsym, hprev⟩
  constructor
  · simp only [nextSymFn, hscan, if_pos hdeg]
  · have hne : ¬((sliceTok src b e = sv "," ∨ sliceTok src b e = sv ";") ∧
        (([] : Str) = sv "," ∨ ([] : Str) = sv ";")) := by
      rintro ⟨-, h | h⟩ <;> simp [sv] at h
    simp only [nextSymFn, hscan, if_neg hne]

/-- Witness for C7: the degenerate step of tokenizing `",;"`. -/
theorem c7_degenerate_returns_empty_witness :
    nextSymFn (sv ",;") ⟨1, sv ",", 0⟩ = (some [], ⟨1, [], 0⟩) ∧
      nextSymFn (sv ",;") ⟨1, [], 0⟩ =
        (some (sliceTok (sv ",;") 1 2), ⟨2, sliceTok (sv ",;") 1 2, 1⟩) :=
  c7_degenerate_returns_empty (sv ",;") ⟨1, sv ",", 0⟩ 1 2 2 (by decide)
    (.inr (by decide)) (.inl rfl)

/-! ## C8 — `position` after `peek_sym` -/

/-- C8 (counterexample): on `"a,b"`, after consuming `a` the reported
position is (1,1); peeking the `,` moves the reported position to (1,2),
the peeked token's start — the claim said `position()` is unchanged by
peeks and reports the last consumed token. -/
theorem c8_peek_moves_position :
    nextSymFn (sv "a,b") ⟨0, [], 0⟩ = (some (sv "a"), ⟨1, sv "a", 0⟩) ∧
    positionOf (sv "a,b") ⟨1, sv "a", 0⟩ = (1, 1) ∧
    (peekSymFn (sv "a,b") ⟨1, sv "a", 0⟩).1 = some (sv ",") ∧
    positionOf (sv "a,b") (peekSymFn (sv "a,b") ⟨1, sv "a", 0⟩).2 = (1, 2) ∧
    ((1, 2) : Nat × Nat) ≠ (1, 1) := by decide

/-- C8 (amended): `peek_sym` restores the cursor and the previous-symbol
register but not `latest_offset`; after a non-degenerate peek, the state
reported by `position()` is the start of the *peeked* token — the same
position a consuming `next_sym` would report — not that of the last
consumed token. -/
theorem c8_position_tracks_latest_scan (src : Str) (st : RState) (b e p' : Nat)
    (hscan : scanPipe src st.pos = some (b, e, p'))
    (hnd : ¬((sliceTok src b e = sv "," ∨ sliceTok src b e = sv ";") ∧
        (st.prev = sv "," ∨ st.prev = sv ";"))) :
    nextSymFn src st = (some (sliceTok src b e), ⟨p', sliceTok src b e, b⟩) ∧
      peekSymFn src st = (some (sliceTok src b e), ⟨st.pos, st.prev, b⟩) ∧
      positionOf src ⟨st.pos, st.prev, b⟩ = posOf src b := by
  have h1 : nextSymFn src st = (some (sliceTok src b e), ⟨p', sliceTok src b e, b⟩) := by
    simp only [nextSymFn, hscan, if_neg hnd]
  refine ⟨h1, ?_, rfl⟩
  simp only [peekSymFn, h1]

/-- Witness for C8: peeking the `,` of `"a,b"` after consuming `a`. -/
theorem c8_position_tracks_latest_scan_witness :
    nextSymFn (sv "a,b") ⟨1, sv "a", 0⟩ =
        (some (sliceTok (sv "a,b") 1 2), ⟨2, sliceTok (sv "a,b") 1 2, 1⟩) ∧
      peekSymFn (sv "a,b") ⟨1, sv "a", 0⟩ =
        (some (sliceTok (sv "a,b") 1 2), ⟨1, sv "a", 1⟩) ∧
      positionOf (sv "a,b") ⟨1, sv "a", 1⟩ = posOf (sv "a,b") 1 :=
  c8_position_tracks_latest_scan (sv "a,b") ⟨1, sv "a", 0⟩ 1 2 2 (by decide)
    (by decide)

/-! ## C9 — position arithmetic -/

/-- C9 (counterexample): on source `"a\tb"` the position of offset 2
(the `b`) is (1,5) — the tab advanced the column from 2 to the tab stop
5 — not (1,6) as the claim's advance-by-exactly-4 rule predicts. -/
theorem c9_tab_not_plus_four :
    posOf (sv "a\tb") 2 = (1, 5) ∧ posClaimOf (sv "a\tb") 2 = (1, 6) ∧
      posOf (sv "a\tb") 2 ≠ posClaimOf (sv "a\tb") 2 := by decide

theorem posGo_stop (l : List Nat) (idx stop : Nat) (p : Nat × Nat) (h : stop ≤ idx) :
    posGo l idx stop p = p := by
  rw [posGo.eq_def]
  split <;> simp [h]

theorem posSpecStep_cons_cr (rest : List Nat) (line col : Nat)
    (hne : rest.head? ≠ some 0x0A) :
    posSpecStep (0x0D :: rest) (line, col) = posSpecStep rest (line + 1, 1) := by
  rcases rest with - | ⟨c2, r2⟩
  · simp [posSpecStep]
  · rcases eq_or_ne c2 0x0A with rfl | hc2
    · simp at hne
    · rw [posSpecStep.eq_def]
      split <;> simp_all

theorem posGo_cons_cr (rest : List Nat) (idx stop line col : Nat)
    (h : ¬stop ≤ idx) (hne : rest.head? ≠ some 0x0A) :
    posGo (0x0D :: rest) idx stop (line, col) = posGo rest (idx + 1) stop (line + 1, 1) := by
  rcases rest with - | ⟨c2, r2⟩
  · simp [posGo, if_neg h, posGo_stop]
  · rcases eq_or_ne c2 0x0A with rfl | hc2
    · simp at hne
    · rw [posGo.eq_def]
      split <;> simp_all

theorem posSpecStep_cons_other (c : Nat) (rest : List Nat) (line col : Nat)
    (h13 : c ≠ 0x0D) (h10 : c ≠ 0x0A) :
    posSpecStep (c :: rest) (line, col) =
      posSpecStep rest (line, if c = 0x09 then col + (4 - (col - 1) % 4) else col + 1) := by
  rw [posSpecStep.eq_def]
  split <;> simp_all

theorem posGo_cons_other (c : Nat) (rest : List Nat) (idx stop line col : Nat)
    (h13 : c ≠ 0x0D) (h10 : c ≠ 0x0A) (h : ¬stop ≤ idx) :
    posGo (c :: rest) idx stop (line, col) =
      posGo rest (idx + 1) stop
        (line, if c = 0x09 then col + (4 - (col - 1) % 4) else col + 1) := by
  rw [posGo.eq_def]
  split <;> simp_all
  split
  · exfalso; omega
  · split <;> rfl

theorem take_head_ne (k v : Nat) (l : List Nat) (hne : l.head? ≠ some v) :
    (l.take k).head? ≠ some v := by
  cases k
  · simp
  · cases l <;> simp_all

theorem posGo_spec (l : List Nat) (idx stop : Nat) (p : Nat × Nat) :
    posGo l idx stop p = posSpecStep (l.take (stop - idx)) p := by
  induction l, idx, stop, p using posGo.induct with
  | case1 idx stop p => simp [posGo, posSpecStep]
  | case2 rest2 idx stop line col h =>
    have h0 : stop - idx = 0 := by omega
    simp [posGo, if_pos h, h0, posSpecStep]
  | case3 rest2 idx stop line col h ih =>
    simp only [posGo, if_neg h]
    rw [ih]
    rcases hk : stop - idx with - | k
    · omega
    · rcases k with - | k'
      · have h2 : stop - (idx + 2) = 0 := by omega
        simp [hk, h2, posSpecStep]
      · have h2 : stop - (idx + 2) = k' := by omega
        simp [hk, h2, posSpecStep]
  | case4 rest idx stop line col hx h =>
    have h0 : stop - idx = 0 := by omega
    rw [posGo_stop _ _ _ _ h, h0]
    simp [posSpecStep]
  | case5 rest idx stop line col hx h ih =>
    have hne : rest.head? ≠ some 0x0A := by
      cases rest with
      | nil => simp
      | cons a r =>
        simp only [List.head?, ne_eq, Option.some.injEq]
        intro ha
        exact hx r (by rw [ha])
    rw [posGo_cons_cr _ _ _ _ _ h hne, ih]
    rcases hk : stop - idx with - | k
    · omega
    · have h2 : stop - (idx + 1) = k := by omega
      rw [h2, List.take_succ_cons,
        posSpecStep_cons_cr _ _ _ (take_head_ne _ _ _ hne)]
  | case6 rest idx stop line col h =>
    have h0 : stop - idx = 0 := by omega
    rw [posGo_stop _ _ _ _ h, h0]
    simp [posSpecStep]
  | case7 rest idx stop line col h ih =>
    simp only [posGo, if_neg h]
    rw [ih]
    rcases hk : stop - idx with - | k
    · omega
    · have h2 : stop - (idx + 1) = k := by omega
      rw [h2, List.take_succ_cons]
      simp [posSpecStep]
  | case8 c rest idx stop line col hx1 hx2 hx3 h =>
    have h0 : stop - idx = 0 := by omega
    rw [posGo_stop _ _ _ _ h, h0]
    simp [posSpecStep]
  | case9 rest idx stop line col h hx1 hx2 hx3 ih =>
    rw [posGo_cons_other 9 rest idx stop line col (by omega) (by omega) h,
      if_pos (show (9 : Nat) = 9 from rfl), ih]
    rcases hk : stop - idx with - | k
    · omega
    · have h2 : stop - (idx + 1) = k := by omega
      rw [h2, List.take_succ_cons,
        posSpecStep_cons_other 9 _ _ _ (by omega) (by omega),
        if_pos (show (9 : Nat) = 9 from rfl)]
  | case10 c rest idx stop line col hx1 hx2 hx3 h hc9 ih =>
    have h13 : c ≠ 0x0D := fun hc => hx2 hc
    have h10 : c ≠ 0x0A := fun hc => hx3 hc
    rw [posGo_cons_other c rest idx stop line col h13 h10 h, if_neg hc9, ih]
    rcases hk : stop - idx with - | k
    · omega
    · have h2 : stop - (idx + 1) = k := by omega
      rw [h2, List.take_succ_cons,
        posSpecStep_cons_other c _ _ _ h13 h10, if_neg hc9]

/-- C9 (amended): position tracking starts at (1,1); a line break
(`\r`, `\n`, or `\r\n` as one break) moves to (line+1, 1); every other
character advances the column — a tab to the next tab stop of width 4
(by `4 - (column-1) % 4`), anything else by exactly 1. -/
theorem c9_position_rule_amended (src : Str) (stop : Nat) :
    posOf src stop = posSpecOf src stop := by
  have h := posGo_spec src 0 stop (1, 1)
  simpa [posOf, posSpecOf] using h


/-! ## C1 (counterexample) and C2 (counterexample) -/

/-- C1 (counterexample): an input-direction `Data` meeting all
field-length constraints does not round-trip — `encode` walks
`in_blocks` while `decode_non_block` always walks `out_blocks`, so the
decoded result has no blocks at all. -/
theorem c1_input_data_does_not_roundtrip :
    encode c1Data c1Tr = .ok [0x61] ∧
    decode_non_block c1Tr .Input [0x61] = .ok ⟨sv "t", .Input, []⟩ ∧
    trimData c1Data = c1Data ∧
    (⟨sv "t", .Input, []⟩ : Data) ≠ c1Data := by decide

/-- C2 (counterexample): a buffer with one extra trailing byte beyond
the `5 + count * record_byte_length` an array block consumes is
accepted, not rejected — `decode_non_block` only checks that enough
bytes remain, never that the buffer is consumed exactly. -/
theorem c2_trailing_bytes_accepted :
    decode_non_block c2Tr .Output (sv "00000" ++ [0x41]) =
      .ok ⟨sv "t2", .Output, [(sv "tOutBlock", .array [])]⟩ ∧
    (sv "00000" ++ [0x41]).length ≠ 5 + 0 * c2Block.len := by decide

/-! ## C5 — conflict detection in the loader merge -/

theorem lookupA_mem {α : Type} (tbl : List (Str × α)) (k : Str) (v : α)
    (h : lookupA tbl k = some v) : (k, v) ∈ tbl := by
  induction tbl with
  | nil => simp [lookupA] at h
  | cons p rest ih =>
    rw [lookupA] at h
    by_cases hk : p.1 = k
    · rw [if_pos hk] at h
      have hp : p = (k, v) := by
        obtain ⟨a, b⟩ := p
        injection h with h2
        simp_all
      rw [← hp]
      exact .head _
    · rw [if_neg hk] at h
      exact .tail _ (ih h)

theorem insertA_of_lookup_none {α : Type} (tbl : List (Str × α)) (k : Str) (v : α)
    (h : lookupA tbl k = none) : insertA tbl k v = tbl ++ [(k, v)] := by
  induction tbl with
  | nil => rfl
  | cons p rest ih =>
    rw [lookupA] at h
    by_cases hk : p.1 = k
    · rw [if_pos hk] at h; exact absurd h (by simp)
    · rw [if_neg hk] at h
      obtain ⟨a, b⟩ := p
      simp only [insertA, if_neg hk, List.cons_append, List.cons.injEq, true_and]
      exact ih h

theorem lookupA_append {α : Type} (t1 t2 : List (Str × α)) (k : Str) :
    lookupA (t1 ++ t2) k =
      (match lookupA t1 k with
       | some v => some v
       | none => lookupA t2 k) := by
  induction t1 with
  | nil => simp [lookupA]
  | cons p rest ih =>
    by_cases hk : p.1 = k
    · obtain ⟨a, b⟩ := p; simp_all [lookupA, if_pos hk]
    · obtain ⟨a, b⟩ := p
      simp only [List.cons_append, lookupA, if_neg hk]
      exact ih

theorem uniq_insert {α : Type} (tbl : List (Str × α)) (k : Str) (v : α)
    (hnone : lookupA tbl k = none)
    (huniq : ∀ p ∈ tbl, lookupA tbl p.1 = some p.2) :
    ∀ p ∈ insertA tbl k v, lookupA (insertA tbl k v) p.1 = some p.2 := by
  rw [insertA_of_lookup_none tbl k v hnone]
  intro p hp
  rcases List.mem_append.mp hp with hp | hp
  · rw [lookupA_append, huniq p hp]
  · simp only [List.mem_singleton] at hp
    subst hp
    rw [lookupA_append, hnone, lookupA, if_pos rfl]

theorem mergeGo_cons_eq (l : TrLayout) (rest : List TrLayout)
    (tbl : List (Str × TrLayout)) (other : TrLayout)
    (hfind : lookupA tbl l.code = some other) (heq : l = other) :
    mergeGo (l :: rest) tbl = mergeGo rest tbl := by
  simp only [mergeGo, hfind, if_neg (by simp [heq] : ¬l ≠ other)]

theorem mergeGo_cons_conflict (l : TrLayout) (rest : List TrLayout)
    (tbl : List (Str × TrLayout)) (other : TrLayout)
    (hfind : lookupA tbl l.code = some other) (hne : l ≠ other) :
    mergeGo (l :: rest) tbl = .error (.Confilict l.code) := by
  simp only [mergeGo, hfind, if_pos hne]

theorem mergeGo_cons_new (l : TrLayout) (rest : List TrLayout)
    (tbl : List (Str × TrLayout)) (hfind : lookupA tbl l.code = none) :
    mergeGo (l :: rest) tbl = mergeGo rest (insertA tbl l.code l) := by
  simp only [mergeGo, hfind]

theorem mergeGo_ok_tbl (rest : List TrLayout) (tbl : List (Str × TrLayout))
    (t : List (Str × TrLayout))
    (huniq : ∀ p ∈ tbl, lookupA tbl p.1 = some p.2)
    (hok : mergeGo rest tbl = .ok t) :
    ∀ l ∈ rest, ∀ p ∈ tbl, p.1 = l.code → p.2 = l := by
  induction rest generalizing tbl with
  | nil => intro l hl; simp at hl
  | cons l rest ih =>
    intro l' hl' p hp hpc
    cases hfind : lookupA tbl l.code with
    | some other =>
      by_cases hne : l = other
      · rw [mergeGo_cons_eq l rest tbl other hfind hne] at hok
        rcases List.mem_cons.mp hl' with heq | hl'
        · have hu := huniq p hp
          rw [hpc, heq, hfind] at hu
          injection hu with hu
          rw [heq, ← hu]
          exact hne.symm
        · exact ih tbl huniq hok l' hl' p hp hpc
      · rw [mergeGo_cons_conflict l rest tbl other hfind hne] at hok
        exact absurd hok (by simp)
    | none =>
      rw [mergeGo_cons_new l rest tbl hfind] at hok
      rcases List.mem_cons.mp hl' with heq | hl'
      · have hu := huniq p hp
        rw [hpc, heq, hfind] at hu
        exact absurd hu (by simp)
      · refine ih (insertA tbl l.code l) (uniq_insert tbl l.code l hfind huniq) hok
          l' hl' p ?_ hpc
        rw [insertA_of_lookup_none tbl l.code l hfind]
        exact List.mem_append.mpr (.inl hp)

theorem mergeGo_ok_compat (rest : List TrLayout) (tbl : List (Str × TrLayout))
    (t : List (Str × TrLayout))
    (huniq : ∀ p ∈ tbl, lookupA tbl p.1 = some p.2)
    (hok : mergeGo rest tbl = .ok t) :
    ∀ l1 ∈ rest, ∀ l2 ∈ rest, l1.code = l2.code → l1 = l2 := by
  induction rest generalizing tbl with
  | nil => intro l1 h1; simp at h1
  | cons l rest ih =>
    intro l1 h1 l2 h2 hc
    have step : ∀ tbl' : List (Str × TrLayout),
        (∀ p ∈ tbl', lookupA tbl' p.1 = some p.2) → mergeGo rest tbl' = .ok t →
        (l.code, l) ∈ tbl' →
        l1 = l2 := by
      intro tbl' huniq' hok' hmem
      rcases List.mem_cons.mp h1 with heq1 | h1 <;> rcases List.mem_cons.mp h2 with heq2 | h2
      · rw [heq1, heq2]
      · rw [heq1]
        exact mergeGo_ok_tbl rest tbl' t huniq' hok' l2 h2 (l.code, l) hmem
          (by rw [← heq1]; exact hc)
      · rw [heq2]
        exact (mergeGo_ok_tbl rest tbl' t huniq' hok' l1 h1 (l.code, l) hmem
          (by rw [← heq2]; exact hc.symm)).symm
      · exact ih tbl' huniq' hok' l1 h1 l2 h2 hc
    cases hfind : lookupA tbl l.code with
    | some other =>
      by_cases hne : l = other
      · rw [mergeGo_cons_eq l rest tbl other hfind hne] at hok
        refine step tbl huniq hok ?_
        have hm := lookupA_mem tbl l.code other hfind
        rw [← hne] at hm
        exact hm
      · rw [mergeGo_cons_conflict l rest tbl other hfind hne] at hok
        exact absurd hok (by simp)
    | none =>
      rw [mergeGo_cons_new l rest tbl hfind] at hok
      refine step (insertA tbl l.code l) (uniq_insert tbl l.code l hfind huniq) hok ?_
      rw [insertA_of_lookup_none tbl l.code l hfind]
      exact List.mem_append.mpr (.inr (by simp))

theorem mergeGo_error_spec (rest : List TrLayout) (tbl : List (Str × TrLayout))
    (e : LoadError) (S : List TrLayout)
    (hkeys : ∀ p ∈ tbl, p.2.code = p.1)
    (htbl : ∀ p ∈ tbl, p.2 ∈ S)
    (hrest : ∀ l ∈ rest, l ∈ S)
    (herr : mergeGo rest tbl = .error e) :
    ∃ c, e = .Confilict c ∧
      ∃ l1 ∈ S, ∃ l2 ∈ S, l1.code = c ∧ l2.code = c ∧ l1 ≠ l2 := by
  induction rest generalizing tbl with
  | nil => rw [mergeGo] at herr; exact absurd herr (by simp)
  | cons l rest ih =>
    cases hfind : lookupA tbl l.code with
    | some other =>
      by_cases hne : l = other
      · rw [mergeGo_cons_eq l rest tbl other hfind hne] at herr
        exact ih tbl hkeys htbl (fun x hx => hrest x (.tail _ hx)) herr
      · rw [mergeGo_cons_conflict l rest tbl other hfind hne] at herr
        injection herr with herr
        have hmem := lookupA_mem tbl l.code other hfind
        refine ⟨l.code, herr.symm, other, htbl _ hmem, l, hrest l (.head _),
          hkeys _ hmem, rfl, fun hoe => hne hoe.symm⟩
    | none =>
      rw [mergeGo_cons_new l rest tbl hfind] at herr
      refine ih (insertA tbl l.code l) ?_ ?_ (fun x hx => hrest x (.tail _ hx)) herr
      · rw [insertA_of_lookup_none tbl l.code l hfind]
        intro p hp
        rcases List.mem_append.mp hp with hp | hp
        · exact hkeys p hp
        · simp only [List.mem_singleton] at hp; subst hp; rfl
      · rw [insertA_of_lookup_none tbl l.code l hfind]
        intro p hp
        rcases List.mem_append.mp hp with hp | hp
        · exact htbl p hp
        · simp only [List.mem_singleton] at hp; subst hp; exact hrest l (.head _)

theorem mergeGo_ok_exists (rest : List TrLayout) (tbl : List (Str × TrLayout))
    (hpair : ∀ l1 ∈ rest, ∀ l2 ∈ rest, l1.code = l2.code → l1 = l2)
    (hmix : ∀ l ∈ rest, ∀ p ∈ tbl, p.1 = l.code → p.2 = l) :
    ∃ t, mergeGo rest tbl = .ok t := by
  induction rest generalizing tbl with
  | nil => exact ⟨tbl, rfl⟩
  | cons l rest ih =>
    cases hfind : lookupA tbl l.code with
    | some other =>
      have heq : other = l :=
        hmix l (.head _) (l.code, other) (lookupA_mem tbl l.code other hfind) rfl
      rw [mergeGo_cons_eq l rest tbl other hfind heq.symm]
      exact ih tbl (fun a ha b hb => hpair a (.tail _ ha) b (.tail _ hb))
        (fun a ha p hp => hmix a (.tail _ ha) p hp)
    | none =>
      rw [mergeGo_cons_new l rest tbl hfind]
      refine ih (insertA tbl l.code l)
        (fun a ha b hb => hpair a (.tail _ ha) b (.tail _ hb)) ?_
      intro a ha p hp hpa
      rw [insertA_of_lookup_none tbl l.code l hfind] at hp
      rcases List.mem_append.mp hp with hp | hp
      · exact hmix a (.tail _ ha) p hp hpa
      · simp only [List.mem_singleton] at hp
        subst hp
        exact hpair l (.head _) a (.tail _ ha) hpa

/-- C5: merge behaviour of `load_dir` on the parsed layouts. -/
theorem c5_conflict_detection (ls : List TrLayout) :
    ((∃ l1 ∈ ls, ∃ l2 ∈ ls, l1.code = l2.code ∧ l1 ≠ l2) →
      ∃ c, mergeLayouts ls = .error (.Confilict c) ∧
        ∃ l1 ∈ ls, ∃ l2 ∈ ls, l1.code = c ∧ l2.code = c ∧ l1 ≠ l2) ∧
    ((∀ l1 ∈ ls, ∀ l2 ∈ ls, l1.code = l2.code → l1 = l2) →
      ∃ tbl, mergeLayouts ls = .ok tbl) := by
  constructor
  · rintro ⟨l1, h1, l2, h2, hc, hne⟩
    cases hm : mergeLayouts ls with
    | ok t =>
      exact absurd (mergeGo_ok_compat ls [] t (by simp) hm l1 h1 l2 h2 hc) hne
    | error e =>
      obtain ⟨c, hE, l1', hm1, l2', hm2, hc1, hc2, hne'⟩ :=
        mergeGo_error_spec ls [] e ls (by simp) (by simp) (fun x hx => hx) hm
      subst hE
      exact ⟨c, rfl, l1', hm1, l2', hm2, hc1, hc2, hne'⟩
  · intro hcompat
    exact mergeGo_ok_exists ls [] hcompat (by simp)

/-- Witness for C5: two structurally different layouts sharing code
`"t"` make the merge fail with `Confilict`, and duplicated equal
layouts merge fine. -/
theorem c5_conflict_detection_witness :
    (∃ c, mergeLayouts [c1Tr, { c1Tr with desc := sv "other" }] =
        .error (.Confilict c) ∧
      ∃ l1 ∈ [c1Tr, { c1Tr with desc := sv "other" }],
        ∃ l2 ∈ [c1Tr, { c1Tr with desc := sv "other" }],
          l1.code = c ∧ l2.code = c ∧ l1 ≠ l2) ∧
    ∃ tbl, mergeLayouts [c1Tr, c1Tr] = .ok tbl := by
  constructor
  · exact (c5_conflict_detection [c1Tr, { c1Tr with desc := sv "other" }]).1
      ⟨c1Tr, by simp, { c1Tr with desc := sv "other" }, by simp, rfl, by decide⟩
  · exact (c5_conflict_detection [c1Tr, c1Tr]).2 (by decide)

/-! ## C4 — field length checking and NUL padding in encode -/
theorem resizeZero_of_le (l : List Nat) (n : Nat) (h : l.length ≤ n) :
    resizeZero l n = l ++ List.replicate (n - l.length) 0 := by
  simp [resizeZero, if_pos h]

theorem encode_pad_eq (tr : TrLayout) (f : FieldLayout) (v : Str)
    (hfit : (euckrEncode v).length ≤ f.len) :
    (if tr.attr_byte then resizeZero (euckrEncode v) (f.len + 1)
     else resizeZero (euckrEncode v) f.len) = padField tr f v := by
  by_cases h : tr.attr_byte <;>
    simp [h, padField, attrAdj, resizeZero_of_le, hfit, Nat.le_succ_of_le hfit]

theorem padField_length (tr : TrLayout) (f : FieldLayout) (v : Str)
    (hfit : (euckrEncode v).length ≤ f.len) :
    (padField tr f v).length = f.len + attrAdj tr := by
  simp [padField]
  omega

theorem encode_block_exceeds (tr : TrLayout) (bl : BlockLayout)
    (fs1 : List FieldLayout) (f : FieldLayout) (fs2 : List FieldLayout)
    (r : Record) (v : Str)
    (hpre : ∀ g ∈ fs1, ∃ w, lookupField r g = some w ∧ (euckrEncode w).length ≤ g.len)
    (hv : lookupField r f = some v)
    (hlong : (euckrEncode v).length > f.len) :
    encode_block tr bl (fs1 ++ f :: fs2) r = .error (.ExceedFieldLength bl.name f.name) := by
  induction fs1 with
  | nil =>
    rw [List.nil_append, encode_block]
    simp only [hv, if_pos hlong]
  | cons g fs1 ih =>
    obtain ⟨w, hw, hwfit⟩ := hpre g (.head _)
    have hnot : ¬(euckrEncode w).length > g.len := by omega
    rw [List.cons_append, encode_block]
    simp only [hw, if_neg hnot]
    rw [ih (fun x hx => hpre x (.tail _ hx))]

theorem encode_block_ok (tr : TrLayout) (bl : BlockLayout)
    (fields : List FieldLayout) (r : Record) (W : FieldLayout → Str)
    (hW : ∀ g ∈ fields, lookupField r g = some (W g))
    (hfit : ∀ g ∈ fields, (euckrEncode (W g)).length ≤ g.len) :
    encode_block tr bl fields r =
      .ok ((fields.map (fun g => padField tr g (W g))).flatten) := by
  induction fields with
  | nil => rfl
  | cons g fs ih =>
    have hnot : ¬(euckrEncode (W g)).length > g.len := by
      have := hfit g (.head _); omega
    rw [encode_block]
    simp only [hW g (.head _), if_neg hnot]
    rw [ih (fun x hx => hW x (.tail _ hx)) (fun x hx => hfit x (.tail _ hx))]
    rw [encode_pad_eq tr g (W g) (hfit g (.head _))]
    simp

/-- C4: for a field anywhere in a block (the earlier fields having
fitting values), encoding fails with `ExceedFieldLength` whenever the
encoded value is longer than the field's `byte_length` — it never
truncates — and when every value fits, the block encodes to exactly the
concatenation of the per-field paddings, each `byte_length` plus one
attribute byte long. -/
theorem c4_exceed_or_pad (tr : TrLayout) (bl : BlockLayout)
    (fs1 : List FieldLayout) (f : FieldLayout) (fs2 : List FieldLayout)
    (r : Record) (W : FieldLayout → Str)
    (hsplit : bl.fields = fs1 ++ f :: fs2)
    (hW : ∀ g ∈ bl.fields, lookupField r g = some (W g))
    (hpre : ∀ g ∈ fs1, (euckrEncode (W g)).length ≤ g.len) :
    ((euckrEncode (W f)).length > f.len →
      encode_block tr bl bl.fields r = .error (.ExceedFieldLength bl.name f.name)) ∧
    ((∀ g ∈ bl.fields, (euckrEncode (W g)).length ≤ g.len) →
      encode_block tr bl bl.fields r =
        .ok ((bl.fields.map (fun g => padField tr g (W g))).flatten) ∧
      ∀ g ∈ bl.fields, (padField tr g (W g)).length = g.len + attrAdj tr) := by
  constructor
  · intro hlong
    rw [hsplit]
    exact encode_block_exceeds tr bl fs1 f fs2 r (W f)
      (fun g hg => ⟨W g, hW g (by rw [hsplit]; exact List.mem_append.mpr (.inl hg)),
        hpre g hg⟩)
      (hW f (by rw [hsplit]; exact List.mem_append.mpr (.inr (.head _)))) hlong
  · intro hall
    exact ⟨encode_block_ok tr bl bl.fields r W hW hall,
      fun g hg => padField_length tr g (W g) (hall g hg)⟩

/-- Witness for C4: the claim's concrete scenario — value `"12345"` in
a `byte_length = 4` slot fails with `ExceedFieldLength`. -/
theorem c4_exceed_or_pad_witness :
    encode_block c4Tr c4Block c4Block.fields c4Record =
      .error (.ExceedFieldLength (sv "blkInBlock") (sv "fld")) :=
  (c4_exceed_or_pad c4Tr c4Block [] c4Field [] c4Record (fun _ => sv "12345")
    rfl (by decide) (by decide)).1 (by decide)

/-! ## C2 (amended) - trailing bytes are ignored, not rejected -/
theorem sliceIdx_append (buf ex : List Nat) (o l : Nat) (s : List Nat)
    (h : sliceIdx buf o l = some s) : sliceIdx (buf ++ ex) o l = some s := by
  rw [sliceIdx] at h
  by_cases hb : o + l ≤ buf.length
  · rw [if_pos hb] at h
    rw [sliceIdx, if_pos (by simp; omega)]
    rw [List.drop_append_of_le_length (by omega)]
    rw [List.take_append_of_le_length (by simp; omega)]
    exact h
  · rw [if_neg hb] at h
    exact absurd h (by simp)

theorem decodeFields_mono (tr : TrLayout) (fields : List FieldLayout)
    (buf ex : List Nat) (off : Nat) (acc : Record) (x : Record × Nat)
    (h : decodeFields tr fields buf off acc = .ok x) :
    decodeFields tr fields (buf ++ ex) off acc = .ok x := by
  induction fields generalizing off acc with
  | nil => exact h
  | cons f fs ih =>
    rw [decodeFields] at h
    rw [decodeFields]
    cases hs : sliceIdx buf off f.len with
    | none => rw [hs] at h; exact absurd h (by simp)
    | some bytes =>
      rw [hs] at h
      rw [sliceIdx_append buf ex off f.len bytes hs]
      cases hd : decode_str bytes with
      | error e => simp only [hd] at h; exact absurd h (by simp)
      | ok v =>
        simp only [hd] at h ⊢
        exact ih _ _ h

theorem decodeRecords_mono (tr : TrLayout) (fields : List FieldLayout)
    (buf ex : List Nat) (n off : Nat) (x : List Record × Nat)
    (h : decodeRecords tr fields buf n off = .ok x) :
    decodeRecords tr fields (buf ++ ex) n off = .ok x := by
  induction n generalizing off x with
  | zero => exact h
  | succ n ih =>
    rw [decodeRecords] at h
    rw [decodeRecords]
    cases hf : decodeFields tr fields buf off [] with
    | panic => rw [hf] at h; exact absurd h (by simp)
    | err e => rw [hf] at h; exact absurd h (by simp)
    | ok ro =>
      rw [hf] at h
      rw [decodeFields_mono tr fields buf ex off [] ro hf]
      cases hr : decodeRecords tr fields buf n ro.2 with
      | panic => simp only [hr] at h; exact absurd h (by simp)
      | err e => simp only [hr] at h; exact absurd h (by simp)
      | ok rs =>
        simp only [hr] at h ⊢
        rw [ih _ _ hr]
        exact h

theorem decodeNbBlocks_mono (tr : TrLayout) (bls : List BlockLayout)
    (buf ex : List Nat) (off : Nat) (acc : List (Str × Block))
    (x : List (Str × Block) × Nat)
    (h : decodeNbBlocks tr bls buf off acc = .ok x) :
    decodeNbBlocks tr bls (buf ++ ex) off acc = .ok x := by
  induction bls generalizing off acc x with
  | nil => exact h
  | cons bl rest ih =>
    rw [decodeNbBlocks] at h
    rw [decodeNbBlocks]
    by_cases hocc : bl.occurs
    · simp only [hocc, if_true] at h ⊢
      by_cases h5 : off + 5 > buf.length
      · rw [if_pos h5] at h; exact absurd h (by simp)
      · rw [if_neg h5] at h
        have h5x : ¬off + 5 > (buf ++ ex).length := by
          simp only [List.length_append]; omega
        rw [if_neg h5x]
        cases hs : sliceIdx buf off 5 with
        | none => rw [hs] at h; exact absurd h (by simp)
        | some cntBytes =>
          rw [hs] at h
          rw [sliceIdx_append buf ex off 5 cntBytes hs]
          cases hdec : euckrDecode cntBytes with
          | none => simp only [hdec] at h; exact absurd h (by simp)
          | some cntStr =>
            simp only [hdec] at h ⊢
            cases hp : parseUsize cntStr with
            | none => simp only [hp] at h; exact absurd h (by simp)
            | some n =>
              simp only [hp] at h ⊢
              by_cases hlen : off + 5 + bl.len * n > buf.length
              · rw [if_pos hlen] at h; exact absurd h (by simp)
              · rw [if_neg hlen] at h
                have hlx : ¬off + 5 + bl.len * n > (buf ++ ex).length := by
                  simp only [List.length_append]; omega
                rw [if_neg hlx]
                cases hr : decodeRecords tr bl.fields buf n (off + 5) with
                | panic => rw [hr] at h; exact absurd h (by simp)
                | err e => rw [hr] at h; exact absurd h (by simp)
                | ok rs =>
                  rw [hr] at h
                  rw [decodeRecords_mono tr bl.fields buf ex n (off + 5) rs hr]
                  exact ih _ _ _ h
    · simp only [hocc, if_false] at h ⊢
      by_cases hlen : off + bl.len > buf.length
      · rw [if_pos hlen] at h; exact absurd h (by simp)
      · rw [if_neg hlen] at h
        have hlx : ¬off + bl.len > (buf ++ ex).length := by
          simp only [List.length_append]; omega
        rw [if_neg hlx]
        cases hf : decodeFields tr bl.fields buf off [] with
        | panic => rw [hf] at h; exact absurd h (by simp)
        | err e => rw [hf] at h; exact absurd h (by simp)
        | ok ro =>
          rw [hf] at h
          rw [decodeFields_mono tr bl.fields buf ex off [] ro hf]
          exact ih _ _ _ h

/-- C2 (amended): `decode_non_block` checks only that enough bytes
remain at each step (failing with `MismatchDataLength` otherwise); it
never requires the buffer to be consumed exactly, so appending any
extra trailing bytes to a successfully decoded buffer leaves the decode
result unchanged instead of being rejected. -/
theorem c2_decode_ignores_trailing_bytes (tr : TrLayout) (dt : DataType)
    (buf extra : List Nat) (d : Data)
    (h : decode_non_block tr dt buf = .ok d) :
    decode_non_block tr dt (buf ++ extra) = .ok d := by
  rw [decode_non_block] at h
  rw [decode_non_block]
  by_cases hbm : tr.block_mode
  · rw [if_pos hbm] at h; exact absurd h (by simp)
  · rw [if_neg hbm] at h
    rw [if_neg hbm]
    cases hb : decodeNbBlocks tr tr.out_blocks buf 0 [] with
    | panic => rw [hb] at h; exact absurd h (by simp)
    | err e => rw [hb] at h; exact absurd h (by simp)
    | ok bo =>
      rw [hb] at h
      rw [decodeNbBlocks_mono tr tr.out_blocks buf extra 0 [] bo hb]
      exact h

/-- Witness for C2: the 5-byte count prefix `"00000"` decodes to an
empty array; appending a trailing byte leaves the result unchanged. -/
theorem c2_decode_ignores_trailing_bytes_witness :
    decode_non_block c2Tr .Output (sv "00000" ++ [0x41]) =
      .ok ⟨sv "t2", .Output, [(sv "tOutBlock", .array [])]⟩ :=
  c2_decode_ignores_trailing_bytes c2Tr .Output (sv "00000") [0x41]
    ⟨sv "t2", .Output, [(sv "tOutBlock", .array [])]⟩ (by decide)

/-! ## Codec model lemmas used by the C1 round-trip -/
theorem euckrDecode_cons_lt (b : Nat) (rest : List Nat) (h : b < 0x80) :
    euckrDecode (b :: rest) = (euckrDecode rest).map (b :: ·) := by
  rw [euckrDecode.eq_def]
  dsimp only
  rw [if_pos h]

theorem euckrDecode_cons2 (b b2 : Nat) (rest2 : List Nat) (hb : ¬b < 0x80)
    (hv : (euckrLead b && euckrTrail b2) = true) :
    euckrDecode (b :: b2 :: rest2) =
      (euckrDecode rest2).map ((0x10000 + b * 256 + b2) :: ·) := by
  rw [euckrDecode.eq_def]
  dsimp only
  rw [if_neg hb, if_pos hv]

theorem euckrDecode_ascii_append (l rest : List Nat) (h : ∀ b ∈ l, b < 0x80) :
    euckrDecode (l ++ rest) = (euckrDecode rest).map (l ++ ·) := by
  induction l with
  | nil => simp
  | cons b l' ih =>
    rw [List.cons_append, euckrDecode_cons_lt b _ (h b (.head _))]
    rw [ih (fun x hx => h x (.tail _ hx))]
    cases euckrDecode rest <;> simp

theorem euckrDecode_of_ascii (l : List Nat) (h : ∀ b ∈ l, b < 0x80) :
    euckrDecode l = some l := by
  have h2 := euckrDecode_ascii_append l [] h
  have h0 : euckrDecode ([] : List Nat) = some [] := rfl
  rw [h0] at h2
  simpa using h2

theorem euckrDecode_encodeChar (c : Nat) (rest : List Nat) (h : euckrChar c = true) :
    euckrDecode (euckrEncodeChar c ++ rest) = (euckrDecode rest).map (c :: ·) := by
  by_cases hc : c < 0x80
  · rw [euckrEncodeChar, if_pos hc, List.cons_append, List.nil_append,
      euckrDecode_cons_lt c rest hc]
  · rw [euckrChar] at h
    simp only [Bool.or_eq_true, decide_eq_true_eq, Bool.and_eq_true] at h
    rcases h with h | ⟨⟨hge, hlead⟩, htrail⟩
    · omega
    · have hlead2 : 0x81 ≤ (c - 0x10000) / 256 ∧ (c - 0x10000) / 256 ≤ 0xFE := by
        rw [euckrLead] at hlead
        simpa using hlead
      have htrail2 : 0x41 ≤ (c - 0x10000) % 256 ∧ (c - 0x10000) % 256 ≤ 0xFE := by
        rw [euckrTrail] at htrail
        simpa using htrail
      rw [euckrEncodeChar, if_neg hc,
        if_pos (by simp only [Bool.and_eq_true, decide_eq_true_eq]
                   exact ⟨⟨hge, hlead⟩, htrail⟩)]
      rw [List.cons_append, List.cons_append, List.nil_append]
      rw [euckrDecode_cons2 _ _ _ (by omega)
        (by simp only [Bool.and_eq_true]; exact ⟨hlead, htrail⟩)]
      have hdm := Nat.div_add_mod (c - 0x10000) 256
      have hc2 : 0x10000 + (c - 0x10000) / 256 * 256 + (c - 0x10000) % 256 = c := by
        omega
      rw [hc2]

theorem euckrDecode_encode_append (v : Str) (rest : List Nat)
    (h : ∀ c ∈ v, euckrChar c = true) :
    euckrDecode (euckrEncode v ++ rest) = (euckrDecode rest).map (v ++ ·) := by
  induction v with
  | nil => simp [euckrEncode]
  | cons c v' ih =>
    have he : euckrEncode (c :: v') = euckrEncodeChar c ++ euckrEncode v' := by
      simp [euckrEncode]
    rw [he, List.append_assoc, euckrDecode_encodeChar c _ (h c (.head _))]
    rw [ih (fun x hx => h x (.tail _ hx))]
    cases euckrDecode rest <;> simp



theorem dropWhile_all_nil (z : Str) (hz : ∀ c ∈ z, trimmable c = true) :
    z.dropWhile trimmable = [] := by
  induction z with
  | nil => rfl
  | cons c z' ih =>
    rw [List.dropWhile_cons, if_pos (hz c (.head _))]
    exact ih (fun x hx => hz x (.tail _ hx))

theorem dropWhile_append_left_all (z y : Str) (hz : z.dropWhile trimmable = []) :
    (z ++ y).dropWhile trimmable = y.dropWhile trimmable := by
  induction z with
  | nil => rfl
  | cons c z' ih =>
    rw [List.dropWhile_cons] at hz
    by_cases hc : trimmable c = true
    · rw [if_pos hc] at hz
      rw [List.cons_append, List.dropWhile_cons, if_pos hc]
      exact ih hz
    · rw [if_neg hc] at hz
      exact absurd hz (by simp)

theorem dropWhile_append_right (x z : Str) (hne : x.dropWhile trimmable ≠ []) :
    (x ++ z).dropWhile trimmable = x.dropWhile trimmable ++ z := by
  induction x with
  | nil => exact absurd rfl hne
  | cons c x' ih =>
    by_cases hc : trimmable c = true
    · rw [List.dropWhile_cons, if_pos hc] at hne
      rw [List.cons_append, List.dropWhile_cons, if_pos hc,
        List.dropWhile_cons, if_pos hc]
      exact ih hne
    · rw [List.cons_append, List.dropWhile_cons, if_neg hc,
        List.dropWhile_cons, if_neg hc]
      rfl

theorem trimValue_append_trimmable (v z : Str) (hz : ∀ c ∈ z, trimmable c = true) :
    trimValue (v ++ z) = trimValue v := by
  rw [trimValue, trimValue]
  by_cases hv : v.dropWhile trimmable = []
  · rw [hv]
    have h1 : (v ++ z).dropWhile trimmable = [] := by
      rw [dropWhile_append_left_all v z hv, dropWhile_all_nil z hz]
    rw [h1]
  · rw [dropWhile_append_right v z hv]
    rw [List.reverse_append]
    have hzrev : (z.reverse).dropWhile trimmable = [] :=
      dropWhile_all_nil _ (fun c hc => hz c (List.mem_reverse.mp hc))
    rw [dropWhile_append_left_all _ _ hzrev]

theorem trimValue_pad (v : Str) (k : Nat) :
    trimValue (v ++ List.replicate k 0) = trimValue v :=
  trimValue_append_trimmable v _ (fun c hc => by
    rw [List.eq_of_mem_replicate hc]
    rfl)



theorem natDecimal_digits (n : Nat) : ∀ d ∈ natDecimal n, 0x30 ≤ d ∧ d ≤ 0x39 := by
  intro d hd
  rw [natDecimal] at hd
  by_cases hn : n = 0
  · rw [if_pos hn] at hd
    simp only [List.mem_singleton] at hd
    omega
  · rw [if_neg hn] at hd
    simp only [List.mem_map, List.mem_reverse] at hd
    obtain ⟨x, hx, rfl⟩ := hd
    have := Nat.digits_lt_base (by norm_num) hx
    omega

theorem natDecimal_ne_nil (n : Nat) : natDecimal n ≠ [] := by
  rw [natDecimal]
  by_cases hn : n = 0
  · rw [if_pos hn]; simp
  · rw [if_neg hn]
    simp only [ne_eq, List.map_eq_nil_iff, List.reverse_eq_nil_iff]
    exact Nat.digits_ne_nil_iff_ne_zero.mpr hn

theorem natDecimal_len_le (n : Nat) (h : n < 100000) : (natDecimal n).length ≤ 5 := by
  rw [natDecimal]
  by_cases hn : n = 0
  · rw [if_pos hn]; simp
  · rw [if_neg hn]
    simp only [List.length_map, List.length_reverse]
    rw [Nat.digits_len 10 n (by norm_num) hn]
    have := Nat.log_lt_of_lt_pow hn (show n < 10 ^ 5 by norm_num; omega)
    omega

theorem countPrefix_length (n : Nat) (h : n < 100000) : (countPrefix n).length = 5 := by
  rw [countPrefix]
  simp only [List.length_append, List.length_replicate]
  have := natDecimal_len_le n h
  omega

theorem countPrefix_digits (n : Nat) : ∀ d ∈ countPrefix n, 0x30 ≤ d ∧ d ≤ 0x39 := by
  intro d hd
  rw [countPrefix] at hd
  rcases List.mem_append.mp hd with hd | hd
  · rw [List.eq_of_mem_replicate hd]; omega
  · exact natDecimal_digits n d hd

theorem foldl_mul_add_reverse (ds : List Nat) (a : Nat) :
    List.foldl (fun x d => x * 10 + d) a ds.reverse =
      a * 10 ^ ds.length + Nat.ofDigits 10 ds := by
  induction ds generalizing a with
  | nil => simp [Nat.ofDigits]
  | cons d ds' ih =>
    rw [List.reverse_cons, List.foldl_append, ih]
    simp only [List.foldl_cons, List.foldl_nil, List.length_cons, Nat.ofDigits_cons]
    ring

theorem parseDigits_eq_foldl (l : Str) (a : Nat) (h : ∀ d ∈ l, 0x30 ≤ d ∧ d ≤ 0x39) :
    parseDigits l a = some (List.foldl (fun x d => x * 10 + (d - 0x30)) a l) := by
  induction l generalizing a with
  | nil => rfl
  | cons d l' ih =>
    rw [parseDigits, if_pos (h d (.head _)), List.foldl_cons]
    exact ih _ (fun x hx => h x (.tail _ hx))

theorem foldl_natDecimal (n a : Nat) :
    List.foldl (fun x d => x * 10 + (d - 0x30)) a (natDecimal n) =
      a * 10 ^ (natDecimal n).length + n := by
  rw [natDecimal]
  by_cases hn : n = 0
  · rw [if_pos hn]
    simp [hn]
  · rw [if_neg hn]
    rw [List.foldl_map]
    simp only [Nat.add_sub_cancel]
    rw [foldl_mul_add_reverse, Nat.ofDigits_digits]
    simp

theorem foldl_zeros (k : Nat) :
    List.foldl (fun x d => x * 10 + (d - 0x30)) 0 (List.replicate k 0x30) = 0 := by
  induction k with
  | zero => rfl
  | succ k ih => simpa [List.replicate_succ] using ih

theorem parseUsize_countPrefix (n : Nat) : parseUsize (countPrefix n) = some n := by
  have hdig := countPrefix_digits n
  have hfold : List.foldl (fun x d => x * 10 + (d - 0x30)) 0 (countPrefix n) = n := by
    rw [countPrefix, List.foldl_append, foldl_zeros, foldl_natDecimal]
    simp
  cases hcp : countPrefix n with
  | nil =>
    exfalso
    have := natDecimal_ne_nil n
    rw [countPrefix] at hcp
    rcases List.append_eq_nil.mp hcp with ⟨-, h2⟩
    exact this h2
  | cons c rest =>
    have hc := hdig c (by rw [hcp]; exact .head _)
    have hstep : parseUsize (c :: rest) = parseDigits (c :: rest) 0 := by
      rw [parseUsize.eq_def]
      dsimp only
      rw [if_neg (by omega)]
    rw [hstep, ← hcp, parseDigits_eq_foldl _ _ hdig, hfold]

end Xing

namespace Xing

theorem aligned_shape {α β : Type} (key : α → Str) (Q : α → β → Prop) (d : β) :
    ∀ (xs : List α) (ps : List (Str × β)),
      List.Forall₂ (fun x p => p.1 = key x ∧ Q x p.2) xs ps →
      (xs.map key).Nodup →
      (∀ x ∈ xs, lookupA ps (key x) = some ((lookupA ps (key x)).getD d) ∧
        Q x ((lookupA ps (key x)).getD d)) ∧
      ps = xs.map (fun x => (key x, (lookupA ps (key x)).getD d)) := by
  intro xs ps hal hnd
  induction hal with
  | nil => exact ⟨by simp, rfl⟩
  | cons hx hal' ih =>
    rename_i x p xs' ps'
    obtain ⟨hk, hq⟩ := hx
    rw [List.map_cons, List.nodup_cons] at hnd
    obtain ⟨hnotin, hnd'⟩ := hnd
    obtain ⟨ihl, ihs⟩ := ih hnd'
    have hkey_ne : ∀ y ∈ xs', key y ≠ key x := by
      intro y hy hEq
      exact hnotin (hEq ▸ List.mem_map_of_mem key hy)
    have hhead : lookupA (p :: ps') (key x) = some p.2 := by
      obtain ⟨pk, pv⟩ := p
      simp only at hk
      rw [lookupA, if_pos hk]
    have htail : ∀ y ∈ xs', lookupA (p :: ps') (key y) = lookupA ps' (key y) := by
      intro y hy
      obtain ⟨pk, pv⟩ := p
      simp only at hk
      rw [lookupA, if_neg (by rw [hk]; exact fun hEq => hkey_ne y hy hEq.symm)]
    constructor
    · intro y hy
      rcases List.mem_cons.mp hy with heq | hy'
      · subst heq
        rw [hhead]
        exact ⟨rfl, hq⟩
      · rw [htail y hy']
        exact ihl y hy'
    · rw [List.map_cons]
      have hmapeq : xs'.map (fun y => (key y, (lookupA (p :: ps') (key y)).getD d)) =
          xs'.map (fun y => (key y, (lookupA ps' (key y)).getD d)) :=
        List.map_congr_left (fun y hy => by rw [htail y hy])
      rw [hmapeq, ← ihs, hhead]
      obtain ⟨pk, pv⟩ := p
      simp only at hk
      simp [hk]

theorem goodRecord_lookups (fields : List FieldLayout) (r : Record)
    (hr : goodRecord fields r) (hnd : (fields.map (fun f => f.name)).Nodup) :
    (∀ g ∈ fields, lookupA r g.name = some (valueOf r g) ∧ goodValue g (valueOf r g)) ∧
      r = fields.map (fun g => (g.name, valueOf r g)) := by
  have h := aligned_shape (fun f : FieldLayout => f.name) goodValue [] fields r hr hnd
  exact h

theorem record_trim_shape (fields : List FieldLayout) (r : Record)
    (hr : goodRecord fields r) (hnd : (fields.map (fun f => f.name)).Nodup) :
    trimRecord r = fields.map (fun g => (g.name, trimValue (valueOf r g))) := by
  obtain ⟨-, hshape⟩ := goodRecord_lookups fields r hr hnd
  rw [trimRecord]
  conv_lhs => rw [hshape]
  rw [List.map_map]
  rfl

end Xing

namespace Xing

theorem recLenF_cons (tr : TrLayout) (f : FieldLayout) (fs : List FieldLayout) :
    recLenF tr (f :: fs) = (f.len + attrAdj tr) + recLenF tr fs := by
  simp [recLenF]

theorem recBytesOf_length (tr : TrLayout) (fields : List FieldLayout) (r : Record)
    (hfit : ∀ g ∈ fields, (euckrEncode (valueOf r g)).length ≤ g.len) :
    (recBytesOf tr fields r).length = recLenF tr fields := by
  induction fields with
  | nil => rfl
  | cons f fs ih =>
    rw [recBytesOf, List.map_cons, List.flatten_cons, List.length_append]
    rw [padField_length tr f _ (hfit f (.head _)), recLenF_cons]
    have := ih (fun g hg => hfit g (.tail _ hg))
    rw [recBytesOf] at this
    rw [this]

theorem encode_block_good (tr : TrLayout) (bl : BlockLayout) (r : Record)
    (hr : goodRecord bl.fields r)
    (hnd : (bl.fields.map (fun f => f.name)).Nodup) :
    encode_block tr bl bl.fields r = .ok (recBytesOf tr bl.fields r) := by
  obtain ⟨hlook, -⟩ := goodRecord_lookups bl.fields r hr hnd
  refine encode_block_ok tr bl bl.fields r (valueOf r) ?_ ?_
  · intro g hg
    rw [lookupField, (hlook g hg).1]
  · intro g hg
    exact (hlook g hg).2.2

theorem encodeArr_good (tr : TrLayout) (bl : BlockLayout)
    (hnd : (bl.fields.map (fun f => f.name)).Nodup) :
    ∀ rs : List Record, (∀ r ∈ rs, goodRecord bl.fields r) →
      encodeArr tr bl rs = .ok (arrBytesOf tr bl.fields rs) := by
  intro rs hrs
  induction rs with
  | nil => rfl
  | cons r rs' ih =>
    rw [encodeArr, encode_block_good tr bl r (hrs r (.head _)) hnd]
    rw [ih (fun x hx => hrs x (.tail _ hx))]
    rfl

end Xing

namespace Xing

theorem decodeFields_roundtrip (tr : TrLayout) :
    ∀ (fields : List FieldLayout) (W : FieldLayout → Str),
      (∀ g ∈ fields, goodValue g (W g)) →
      (fields.map (fun f => f.name)).Nodup →
      ∀ (pre post : List Nat) (acc : Record),
      (∀ g ∈ fields, lookupA acc g.name = none) →
      decodeFields tr fields
          (pre ++ (fields.map (fun g => padField tr g (W g))).flatten ++ post)
          pre.length acc =
        .ok (acc ++ fields.map (fun g => (g.name, trimValue (W g))),
          pre.length + recLenF tr fields) := by
  intro fields
  induction fields with
  | nil =>
    intro W hgood hnd pre post acc hacc
    simp [decodeFields, recLenF]
  | cons f fs ih =>
    intro W hgood hnd pre post acc hacc
    obtain ⟨hchars, hfit⟩ := hgood f (.head _)
    have hpadlen : (padField tr f (W f)).length = f.len + attrAdj tr :=
      padField_length tr f (W f) hfit
    have hSlen : (euckrEncode (W f) ++
        List.replicate (f.len - (euckrEncode (W f)).length) 0).length = f.len := by
      simp only [List.length_append, List.length_replicate]
      omega
    have hpadS : padField tr f (W f) =
        (euckrEncode (W f) ++ List.replicate (f.len - (euckrEncode (W f)).length) 0) ++
          List.replicate (attrAdj tr) 0 := by
      rw [padField, List.append_assoc, ← List.replicate_add]
      have : f.len + attrAdj tr - (euckrEncode (W f)).length =
          f.len - (euckrEncode (W f)).length + attrAdj tr := by omega
      rw [this]
    have hbuf : pre ++ ((f :: fs).map (fun g => padField tr g (W g))).flatten ++ post
        = pre ++ (padField tr f (W f) ++
            ((fs.map (fun g => padField tr g (W g))).flatten ++ post)) := by
      simp [List.map_cons, List.flatten_cons, List.append_assoc]
    rw [hbuf]
    have hslice : sliceIdx
        (pre ++ (padField tr f (W f) ++
          ((fs.map (fun g => padField tr g (W g))).flatten ++ post)))
        pre.length f.len
        = some (euckrEncode (W f) ++
            List.replicate (f.len - (euckrEncode (W f)).length) 0) := by
      rw [sliceIdx, if_pos (by
        simp only [List.length_append, hpadlen]
        omega)]
      rw [List.drop_left]
      rw [hpadS]
      rw [List.take_append_of_le_length (by
        simp only [List.length_append, List.length_replicate]
        omega)]
      rw [List.take_append_of_le_length (by rw [hSlen])]
      rw [List.take_of_length_le (by rw [hSlen])]
    have hdec : decode_str (euckrEncode (W f) ++
        List.replicate (f.len - (euckrEncode (W f)).length) 0)
        = .ok (trimValue (W f)) := by
      rw [decode_str.eq_def]
      rw [euckrDecode_encode_append (W f) _ hchars]
      rw [euckrDecode_of_ascii _ (fun b hb => by
        rw [List.eq_of_mem_replicate hb]; omega)]
      simp only [Option.map_some']
      rw [trimValue_pad]
    rw [decodeFields]
    simp only [hslice, hdec]
    rw [insertA_of_lookup_none acc f.name _ (hacc f (.head _))]
    have hoff : pre.length + f.len + (if tr.attr_byte then 1 else 0)
        = (pre ++ padField tr f (W f)).length := by
      rw [List.length_append, hpadlen, attrAdj]
      omega
    rw [hoff]
    have hbuf2 : pre ++ (padField tr f (W f) ++
        ((fs.map (fun g => padField tr g (W g))).flatten ++ post))
        = (pre ++ padField tr f (W f)) ++
            (fs.map (fun g => padField tr g (W g))).flatten ++ post := by
      simp [List.append_assoc]
    rw [hbuf2]
    rw [List.map_cons, List.nodup_cons] at hnd
    have hacc2 : ∀ g ∈ fs,
        lookupA (acc ++ [(f.name, trimValue (W f))]) g.name = none := by
      intro g hg
      rw [lookupA_append, hacc g (.tail _ hg)]
      have hne2 : ¬(f.name = g.name) := fun hEq => hnd.1 (by
        rw [hEq]
        exact List.mem_map_of_mem (fun x => x.name) hg)
      rw [lookupA, if_neg hne2]
      rfl
    rw [ih W (fun g hg => hgood g (.tail _ hg)) hnd.2
      (pre ++ padField tr f (W f)) post _ hacc2]
    rw [List.append_assoc acc]
    simp only [List.singleton_append, List.map_cons]
    rw [List.length_append, hpadlen, recLenF_cons]
    have : pre.length + (f.len + attrAdj tr) + recLenF tr fs
        = pre.length + (f.len + attrAdj tr + recLenF tr fs) := by omega
    rw [this]

end Xing

namespace Xing

theorem decodeRecords_roundtrip (tr : TrLayout) (fields : List FieldLayout)
    (hnd : (fields.map (fun f => f.name)).Nodup) :
    ∀ (rs : List Record) (pre post : List Nat),
      (∀ r ∈ rs, goodRecord fields r) →
      decodeRecords tr fields (pre ++ arrBytesOf tr fields rs ++ post)
          rs.length pre.length
        = .ok (rs.map trimRecord, pre.length + rs.length * recLenF tr fields) := by
  intro rs
  induction rs with
  | nil =>
    intro pre post h
    simp [decodeRecords]
  | cons r rs' ih =>
    intro pre post hrs
    have hgoodr := hrs r (.head _)
    obtain ⟨hlook, hshape⟩ := goodRecord_lookups fields r hgoodr hnd
    rw [List.length_cons, decodeRecords]
    have hbuf : pre ++ arrBytesOf tr fields (r :: rs') ++ post
        = pre ++ (fields.map (fun g => padField tr g (valueOf r g))).flatten ++
            (arrBytesOf tr fields rs' ++ post) := by
      simp [arrBytesOf, recBytesOf, List.append_assoc]
    rw [hbuf]
    have hdf := decodeFields_roundtrip tr fields (valueOf r)
      (fun g hg => (hlook g hg).2) hnd pre (arrBytesOf tr fields rs' ++ post) []
      (fun g hg => rfl)
    simp only [List.nil_append] at hdf
    simp only [hdf]
    have hoff : pre.length + recLenF tr fields = (pre ++ recBytesOf tr fields r).length := by
      rw [List.length_append,
        recBytesOf_length tr fields r (fun g hg => (hlook g hg).2.2)]
    rw [hoff]
    have hbuf2 : pre ++ (fields.map (fun g => padField tr g (valueOf r g))).flatten ++
        (arrBytesOf tr fields rs' ++ post)
        = (pre ++ recBytesOf tr fields r) ++ arrBytesOf tr fields rs' ++ post := by
      simp [recBytesOf, List.append_assoc]
    rw [hbuf2]
    rw [ih _ _ (fun x hx => hrs x (.tail _ hx))]
    rw [← record_trim_shape fields r hgoodr hnd]
    have hlen : (pre ++ recBytesOf tr fields r).length + rs'.length * recLenF tr fields
        = pre.length + (rs'.length + 1) * recLenF tr fields := by
      rw [List.length_append,
        recBytesOf_length tr fields r (fun g hg => (hlook g hg).2.2)]
      ring
    rw [hlen]
    rfl

end Xing

namespace Xing

theorem arrBytesOf_length (tr : TrLayout) (fields : List FieldLayout)
    (hnd : (fields.map (fun f => f.name)).Nodup) (rs : List Record)
    (h : ∀ r ∈ rs, goodRecord fields r) :
    (arrBytesOf tr fields rs).length = rs.length * recLenF tr fields := by
  induction rs with
  | nil => simp [arrBytesOf]
  | cons r rs' ih =>
    obtain ⟨hlook, -⟩ := goodRecord_lookups fields r (h r (.head _)) hnd
    have hh : arrBytesOf tr fields (r :: rs')
        = recBytesOf tr fields r ++ arrBytesOf tr fields rs' := by
      simp [arrBytesOf]
    rw [hh, List.length_append,
      recBytesOf_length tr fields r (fun g hg => (hlook g hg).2.2),
      ih (fun x hx => h x (.tail _ hx)), List.length_cons]
    ring

theorem lookupA_append_single_none {α : Type} (acc : List (Str × α)) (k k' : Str)
    (v : α) (hk : lookupA acc k' = none) (hne : ¬k = k') :
    lookupA (acc ++ [(k, v)]) k' = none := by
  rw [lookupA_append, hk, lookupA, if_neg hne]
  rfl

theorem decodeNbBlocks_roundtrip (tr : TrLayout) :
    ∀ (bls : List BlockLayout) (C : BlockLayout → Block) (pre post : List Nat)
      (acc : List (Str × Block)),
      (∀ bl ∈ bls, goodBlock bl (C bl)) →
      (∀ bl ∈ bls, bl.len = recLenF tr bl.fields ∧
        (bl.fields.map (fun f => f.name)).Nodup) →
      (bls.map (fun bl => bl.name)).Nodup →
      (∀ bl ∈ bls, lookupA acc bl.name = none) →
      decodeNbBlocks tr bls
          (pre ++ (bls.map (fun bl => blockBytesOf tr bl (C bl))).flatten ++ post)
          pre.length acc
        = .ok (acc ++ bls.map (fun bl => (bl.name, trimBlock (C bl))),
            pre.length +
              (bls.map (fun bl => (blockBytesOf tr bl (C bl)).length)).sum) := by
  intro bls
  induction bls with
  | nil =>
    intro C pre post acc h1 h2 h3 h4
    simp [decodeNbBlocks]
  | cons bl rest ih =>
    intro C pre post acc hgood hwf hndb hacc
    obtain ⟨hlen, hndf⟩ := hwf bl (.head _)
    have hg := hgood bl (.head _)
    rw [List.map_cons, List.nodup_cons] at hndb
    rw [decodeNbBlocks]
    cases hC : C bl with
    | block r =>
      rw [hC] at hg
      have hg' : bl.occurs = false ∧ goodRecord bl.fields r := hg
      obtain ⟨hocc, hrec⟩ := hg'
      obtain ⟨hlook, -⟩ := goodRecord_lookups bl.fields r hrec hndf
      simp only [hocc]
      rw [if_neg (by simp)]
      have hfit : ∀ g ∈ bl.fields, (euckrEncode (valueOf r g)).length ≤ g.len :=
        fun g hg2 => (hlook g hg2).2.2
      have hbb : blockBytesOf tr bl (C bl) = recBytesOf tr bl.fields r := by
        rw [hC, blockBytesOf]
      have hbblen : (blockBytesOf tr bl (C bl)).length = recLenF tr bl.fields := by
        rw [hbb, recBytesOf_length tr bl.fields r hfit]
      have hbuf : pre ++ ((bl :: rest).map
            (fun b => blockBytesOf tr b (C b))).flatten ++ post
          = pre ++ (bl.fields.map (fun g => padField tr g (valueOf r g))).flatten ++
              ((rest.map (fun b => blockBytesOf tr b (C b))).flatten ++ post) := by
        simp only [List.map_cons, List.flatten_cons, hbb, recBytesOf]
        simp [List.append_assoc]
      rw [hbuf]
      rw [if_neg (by
        simp only [List.length_append]
        have h1 : ((bl.fields.map (fun g => padField tr g (valueOf r g))).flatten).length
            = recLenF tr bl.fields := by
          have := recBytesOf_length tr bl.fields r hfit
          rw [recBytesOf] at this
          exact this
        omega)]
      have hdf := decodeFields_roundtrip tr bl.fields (valueOf r)
        (fun g hg2 => (hlook g hg2).2) hndf pre
        ((rest.map (fun b => blockBytesOf tr b (C b))).flatten ++ post) []
        (fun g hg2 => rfl)
      simp only [List.nil_append] at hdf
      simp only [hdf]
      rw [insertA_of_lookup_none acc bl.name _ (hacc bl (.head _))]
      have hoff : pre.length + recLenF tr bl.fields
          = (pre ++ blockBytesOf tr bl (C bl)).length := by
        rw [List.length_append, hbblen]
      rw [hoff]
      have hbuf2 : pre ++ (bl.fields.map (fun g => padField tr g (valueOf r g))).flatten ++
          ((rest.map (fun b => blockBytesOf tr b (C b))).flatten ++ post)
          = (pre ++ blockBytesOf tr bl (C bl)) ++
              (rest.map (fun b => blockBytesOf tr b (C b))).flatten ++ post := by
        simp only [hbb, recBytesOf]
        simp [List.append_assoc]
      rw [hbuf2]
      have hacc2 : ∀ b ∈ rest,
          lookupA (acc ++ [(bl.name, Block.block
            (bl.fields.map (fun g => (g.name, trimValue (valueOf r g)))))]) b.name
            = none := by
        intro b hb
        refine lookupA_append_single_none acc bl.name b.name _ (hacc b (.tail _ hb))
          (fun hEq => hndb.1 (by
            rw [hEq]
            exact List.mem_map_of_mem (fun x => x.name) hb))
      rw [ih C (pre ++ blockBytesOf tr bl (C bl)) post _
        (fun b hb => hgood b (.tail _ hb)) (fun b hb => hwf b (.tail _ hb))
        hndb.2 hacc2]
      rw [List.append_assoc acc]
      simp only [List.singleton_append, List.map_cons]
      rw [← record_trim_shape bl.fields r hrec hndf]
      rw [hC]
      have hsum : (pre ++ blockBytesOf tr bl (.block r)).length +
          (rest.map (fun b => (blockBytesOf tr b (C b)).length)).sum
          = pre.length + ((bl :: rest).map
              (fun b => (blockBytesOf tr b (C b)).length)).sum := by
        rw [List.length_append, List.map_cons, List.sum_cons, hC]
        omega
      rw [hsum]
      simp only [List.map_cons, List.sum_cons, hC]
      rfl
    | array rs =>
      rw [hC] at hg
      have hg' : bl.occurs = true ∧ rs.length < 100000 ∧
          ∀ r ∈ rs, goodRecord bl.fields r := hg
      obtain ⟨hocc, hcnt, hrecs⟩ := hg'
      simp only [hocc]
      rw [if_pos trivial]
      have hcp5 : (countPrefix rs.length).length = 5 := countPrefix_length rs.length hcnt
      have harrlen : (arrBytesOf tr bl.fields rs).length
          = rs.length * recLenF tr bl.fields :=
        arrBytesOf_length tr bl.fields hndf rs hrecs
      have hbb : blockBytesOf tr bl (C bl)
          = countPrefix rs.length ++ arrBytesOf tr bl.fields rs := by
        rw [hC, blockBytesOf]
      have hbuf : pre ++ ((bl :: rest).map
            (fun b => blockBytesOf tr b (C b))).flatten ++ post
          = pre ++ (countPrefix rs.length ++ (arrBytesOf tr bl.fields rs ++
              ((rest.map (fun b => blockBytesOf tr b (C b))).flatten ++ post))) := by
        simp only [List.map_cons, List.flatten_cons, hbb]
        simp [List.append_assoc]
      rw [hbuf]
      rw [if_neg (by
        simp only [List.length_append]
        omega)]
      have hslice : sliceIdx
          (pre ++ (countPrefix rs.length ++ (arrBytesOf tr bl.fields rs ++
            ((rest.map (fun b => blockBytesOf tr b (C b))).flatten ++ post))))
          pre.length 5 = some (countPrefix rs.length) := by
        rw [sliceIdx, if_pos (by
          simp only [List.length_append]
          omega)]
        rw [List.drop_left]
        rw [List.take_append_of_le_length (by rw [hcp5])]
        rw [List.take_of_length_le (by rw [hcp5])]
      have hdeccp : euckrDecode (countPrefix rs.length) = some (countPrefix rs.length) :=
        euckrDecode_of_ascii _ (fun b hb => by
          have := countPrefix_digits rs.length b hb
          omega)
      simp only [hslice, hdeccp, parseUsize_countPrefix]
      have hmul : bl.len * rs.length = rs.length * recLenF tr bl.fields := by
        rw [hlen]
        ring
      rw [if_neg (by
        simp only [List.length_append]
        rw [hmul]
        omega)]
      have hdr := decodeRecords_roundtrip tr bl.fields hndf rs
        (pre ++ countPrefix rs.length)
        ((rest.map (fun b => blockBytesOf tr b (C b))).flatten ++ post) hrecs
      have hoff5 : pre.length + 5 = (pre ++ countPrefix rs.length).length := by
        rw [List.length_append, hcp5]
      rw [hoff5]
      have hbuf2 : pre ++ (countPrefix rs.length ++ (arrBytesOf tr bl.fields rs ++
          ((rest.map (fun b => blockBytesOf tr b (C b))).flatten ++ post)))
          = (pre ++ countPrefix rs.length) ++ arrBytesOf tr bl.fields rs ++
              ((rest.map (fun b => blockBytesOf tr b (C b))).flatten ++ post) := by
        simp [List.append_assoc]
      rw [hbuf2]
      simp only [hdr]
      rw [insertA_of_lookup_none acc bl.name _ (hacc bl (.head _))]
      have hoff2 : (pre ++ countPrefix rs.length).length +
          rs.length * recLenF tr bl.fields
          = (pre ++ blockBytesOf tr bl (C bl)).length := by
        rw [List.length_append, List.length_append, hbb, List.length_append,
          hcp5, harrlen]
        omega
      rw [hoff2]
      have hbuf3 : (pre ++ countPrefix rs.length) ++ arrBytesOf tr bl.fields rs ++
          ((rest.map (fun b => blockBytesOf tr b (C b))).flatten ++ post)
          = (pre ++ blockBytesOf tr bl (C bl)) ++
              (rest.map (fun b => blockBytesOf tr b (C b))).flatten ++ post := by
        rw [hbb]
        simp [List.append_assoc]
      rw [hbuf3]
      have hacc2 : ∀ b ∈ rest,
          lookupA (acc ++ [(bl.name, Block.array (rs.map trimRecord))]) b.name
            = none := by
        intro b hb
        refine lookupA_append_single_none acc bl.name b.name _ (hacc b (.tail _ hb))
          (fun hEq => hndb.1 (by
            rw [hEq]
            exact List.mem_map_of_mem (fun x => x.name) hb))
      rw [ih C (pre ++ blockBytesOf tr bl (C bl)) post _
        (fun b hb => hgood b (.tail _ hb)) (fun b hb => hwf b (.tail _ hb))
        hndb.2 hacc2]
      rw [List.append_assoc acc]
      simp only [List.singleton_append, List.map_cons]
      rw [hC]
      have hsum : (pre ++ blockBytesOf tr bl (.array rs)).length +
          (rest.map (fun b => (blockBytesOf tr b (C b)).length)).sum
          = pre.length + ((bl :: rest).map
              (fun b => (blockBytesOf tr b (C b)).length)).sum := by
        rw [List.length_append, List.map_cons, List.sum_cons, hC]
        omega
      rw [hsum]
      simp only [List.map_cons, List.sum_cons, hC]
      rfl

end Xing

namespace Xing

theorem encodeBlocks_good (tr : TrLayout) (data : Data) (hbm : tr.block_mode = false) :
    ∀ (bls : List BlockLayout) (C : BlockLayout → Block),
      (∀ bl ∈ bls, lookupA data.blocks bl.name = some (C bl)) →
      (∀ bl ∈ bls, goodBlock bl (C bl)) →
      (∀ bl ∈ bls, (bl.fields.map (fun f => f.name)).Nodup) →
      encodeBlocks tr data bls
        = .ok ((bls.map (fun bl => blockBytesOf tr bl (C bl))).flatten) := by
  intro bls C
  induction bls with
  | nil => intro _ _ _; rfl
  | cons bl rest ih =>
    intro hlook hgood hnd
    have hlb := hlook bl (.head _)
    have hgb := hgood bl (.head _)
    have hndb := hnd bl (.head _)
    have ih' := ih (fun b hb => hlook b (.tail _ hb))
      (fun b hb => hgood b (.tail _ hb)) (fun b hb => hnd b (.tail _ hb))
    rw [encodeBlocks]
    cases hC : C bl with
    | block r =>
      rw [hC] at hlb hgb
      obtain ⟨hocc, hrec⟩ := hgb
      rw [if_neg (by rw [hocc]; exact Bool.false_ne_true)]
      simp only [hlb]
      rw [encode_block_good tr bl r hrec hndb, ih']
      simp only [List.map_cons, List.flatten_cons, hC]
      rfl
    | array rs =>
      rw [hC] at hlb hgb
      obtain ⟨hocc, hcnt, hrecs⟩ := hgb
      rw [if_pos hocc]
      simp only [hlb]
      have hc1 : (!tr.block_mode && decide (rs.length ≥ 100000)) = false := by
        rw [hbm]
        simp only [Bool.not_false, Bool.true_and]
        exact decide_eq_false (by omega)
      rw [hc1, if_neg Bool.false_ne_true]
      have hc2 : (!tr.block_mode) = true := by rw [hbm]; rfl
      rw [hc2, if_pos rfl]
      rw [encodeArr_good tr bl hndb rs hrecs, ih']
      simp only [List.map_cons, List.flatten_cons, hC, blockBytesOf]

/-- **C1** (amended): the round trip holds in the output direction for
canonical data: for a non-block-mode layout with distinct block and field
names and consistent record lengths, and data holding exactly the declared
output blocks with codec-surviving, length-fitting values and array counts
below 100000, `encode` succeeds and `decode_non_block` on its bytes
returns the data with every string value trimmed. -/
theorem c1_roundtrip_amended (tr : TrLayout) (d : Data)
    (hwf : wfLayout tr) (hg : goodData tr d) :
    ∃ bytes, encode d tr = .ok bytes ∧
      decode_non_block tr .Output bytes = .ok (trimData d) := by
  obtain ⟨hbm, hndb, hblocks⟩ := hwf
  obtain ⟨hcode, hdt, hal⟩ := hg
  obtain ⟨hlk, hshape⟩ := aligned_shape (fun bl : BlockLayout => bl.name) goodBlock
    (Block.block []) tr.out_blocks d.blocks hal hndb
  have henc : encode d tr
      = .ok ((tr.out_blocks.map (fun bl => blockBytesOf tr bl
          ((lookupA d.blocks bl.name).getD (Block.block [])))).flatten) := by
    rw [encode, if_neg (fun h => h hcode)]
    simp only [hdt]
    exact encodeBlocks_good tr d hbm tr.out_blocks _
      (fun bl hbl => (hlk bl hbl).1) (fun bl hbl => (hlk bl hbl).2)
      (fun bl hbl => (hblocks bl hbl).2)
  refine ⟨_, henc, ?_⟩
  rw [decode_non_block, if_neg (by rw [hbm]; exact Bool.false_ne_true)]
  have hdec := decodeNbBlocks_roundtrip tr tr.out_blocks
    (fun bl => (lookupA d.blocks bl.name).getD (Block.block [])) [] [] []
    (fun bl hbl => (hlk bl hbl).2) hblocks hndb (fun _ _ => rfl)
  simp only [List.nil_append, List.append_nil, List.length_nil] at hdec
  simp only [hdec]
  rw [trimData, hcode, hdt]
  conv_rhs => rw [hshape]
  rw [List.map_map]
  rfl

theorem c1_roundtrip_amended_witness :
    wfLayout c1wTr ∧ goodData c1wTr c1wData ∧
      ∃ bytes, encode c1wData c1wTr = .ok bytes ∧
        decode_non_block c1wTr .Output bytes = .ok (trimData c1wData) := by
  have h1 : wfLayout c1wTr := by
    refine ⟨rfl, by decide, ?_⟩
    intro bl hbl
    have hbl' : bl = c1wBlock := List.mem_singleton.mp hbl
    subst hbl'
    exact ⟨by decide, by decide⟩
  have h2 : goodData c1wTr c1wData := by
    refine ⟨rfl, rfl, ?_⟩
    refine List.Forall₂.cons ⟨rfl, ?_⟩ List.Forall₂.nil
    refine ⟨rfl, ?_⟩
    refine List.Forall₂.cons ⟨rfl, ?_⟩ List.Forall₂.nil
    exact ⟨by decide, by decide⟩
  exact ⟨h1, h2, c1_roundtrip_amended c1wTr c1wData h1 h2⟩

end Xing
